import Mathlib

/-! Verification of the BitBucket client of packagecontrol.io
(src/app/lib/package_control/clients/bitbucket_client.py).

The client is embedded shallowly: JSON values are an inductive type, the
fetch_json collaborator is a function parameter producing a JSON value or a
failure, Python exceptions are an explicit error type threaded through
Except, and the two pagination while loops take a fuel bound, with a
distinguished outcome for a walk that never reaches a last page. -/

/-- JSON values as returned by the fetch collaborator. Python None and JSON
null are both represented by the null constructor. -/
inductive JSON where
  | null
  | bool (b : Bool)
  | num (n : Int)
  | str (s : String)
  | arr (xs : List JSON)
  | obj (fields : List (String × JSON))

/-- Failures raised during a call: downloader covers DownloaderException
(the only class the readme lookup catches), other covers every other
exception (KeyError, TypeError, AttributeError, ClientException), and
nonterm marks a pagination walk that runs out of fuel, that is a next chain
that never ends. -/
inductive Exc where
  | downloader (msg : String)
  | other (msg : String)
  | nonterm
deriving DecidableEq

/-- Lookup in the field list of a JSON object, first binding wins. -/
def jLookup (fields : List (String × JSON)) (k : String) : Option JSON :=
  match fields with
  | [] => none
  | (k', v) :: rest => if k' = k then some v else jLookup rest k

/-- Python d[k]: KeyError when the key is absent, TypeError when the value
indexed is not a dict. -/
def jGet (j : JSON) (k : String) : Except Exc JSON :=
  match j with
  | .obj fields =>
    match jLookup fields k with
    | some v => .ok v
    | none => .error (.other ("KeyError: " ++ k))
  | _ => .error (.other "TypeError: not a dict")

/-- Python d[k] if k in d else dflt, as used for the next page link. -/
def jGetD (j : JSON) (k : String) (dflt : JSON) : JSON :=
  match j with
  | .obj fields => (jLookup fields k).getD dflt
  | _ => dflt

/-- Python d.get(k, dflt) on a value that must be a dict (AttributeError
otherwise). -/
def jDictGetD (j : JSON) (k : String) (dflt : JSON) : Except Exc JSON :=
  match j with
  | .obj fields => .ok ((jLookup fields k).getD dflt)
  | _ => .error (.other "AttributeError: not a dict")

/-- Python truthiness of a JSON value. -/
def jtruthy : JSON → Bool
  | .null => false
  | .bool b => b
  | .num n => n != 0
  | .str s => !s.data.isEmpty
  | .arr xs => !xs.isEmpty
  | .obj fields => !fields.isEmpty

/-- Decimal digit test on a character. -/
def isDigit09 (c : Char) : Bool := 48 ≤ c.toNat && c.toNat ≤ 57

/-- Python str.lower restricted to ASCII letters; the paths and filenames
compared in the readme lookup are ASCII. -/
def pyLowerChar (c : Char) : Char :=
  if 65 ≤ c.toNat && c.toNat ≤ 90 then Char.ofNat (c.toNat + 32) else c

/-- Lower casing of a whole string, character by character. -/
def pyLower (s : String) : String := ⟨s.data.map pyLowerChar⟩

/-- Python s[0:19], counted in code points. -/
def pySlice19 (s : String) : String := ⟨s.data.take 19⟩

/-- Python s.replace(a, b) for single character patterns. -/
def replaceChar (a b : Char) (s : String) : String :=
  ⟨s.data.map (fun c => if c = a then b else c)⟩

/-- Model of re.sub applied in branch mode: every hyphen, colon and space
becomes a period. -/
def dotTimestamp (s : String) : String :=
  ⟨s.data.map (fun c => if c = '-' ∨ c = ':' ∨ c = ' ' then '.' else c)⟩

/-- Test that a list starts with the given pattern. -/
def startsWithL : List Char → List Char → Bool
  | _, [] => true
  | [], _ :: _ => false
  | c :: cs, d :: ds => c = d && startsWithL cs ds

/-- Containment of a pattern anywhere in a list of characters. -/
def containsSubL (needle : List Char) : List Char → Bool
  | [] => startsWithL [] needle
  | c :: t => startsWithL (c :: t) needle || containsSubL needle t

/-- Python needle in hay, for strings. -/
def strContains (hay needle : String) : Bool := containsSubL needle.data hay.data

/-- Split of a character list at every occurrence of the separator; the
result is never empty. -/
def splitOnChar (sep : Char) : List Char → List (List Char)
  | [] => [[]]
  | c :: rest =>
    if c = sep then [] :: splitOnChar sep rest
    else
      match splitOnChar sep rest with
      | [] => [[c]]
      | h :: t => (c :: h) :: t

/-- Join with a separator, the left inverse of splitOnChar. -/
def joinOnChar (sep : Char) : List (List Char) → List Char
  | [] => []
  | [x] => x
  | x :: y :: t => x ++ sep :: joinOnChar sep (y :: t)

/-- Strip of a literal pattern from the front of a list, yielding the rest. -/
def stripLit : List Char → List Char → Option (List Char)
  | [], l => some l
  | _ :: _, [] => none
  | c :: cs, d :: ds => if d = c then stripLit cs ds else none

/-- Consumption of the shared regex front https?://bitbucket.org/ of every
URL pattern of the client. The s is optional and the unescaped regex dot
matches any character except a newline. Returns the tail of the URL after
the host. -/
def bbHostRest (url : String) : Option (List Char) :=
  match stripLit "http".data url.data with
  | none => none
  | some rest =>
    let rest1 := match rest with
      | 's' :: r => r
      | r => r
    match stripLit "://bitbucket".data rest1 with
    | none => none
    | some [] => none
    | some (c :: rest2) =>
      if c = '\n' then none else stripLit "org/".data rest2

/-- End anchoring of a pattern as by a dollar in Python re: the pattern must
cover the whole tail, or the whole tail short of one final newline. -/
def endAnchored (core : List Char → Option α) (tail : List Char) : Option α :=
  match core tail with
  | some g => some g
  | none =>
    if tail.getLast? = some '\n' then core tail.dropLast else none

/-- Core of ([^/]+/[^/]+)/?$ against the tail after the host: exactly two
nonempty slash free segments, an optional trailing slash, group 1 returned. -/
def repoTailCore (tail : List Char) : Option String :=
  match splitOnChar '/' tail with
  | [a, b] => if a ≠ [] ∧ b ≠ [] then some ⟨a ++ '/' :: b⟩ else none
  | [a, b, []] => if a ≠ [] ∧ b ≠ [] then some ⟨a ++ '/' :: b⟩ else none
  | _ => none

/-- Core of ([^/]+/[^/]+)/src/([^/]+)/?$ against the tail after the host,
returning groups 1 and 2. -/
def branchTailCore (tail : List Char) : Option (String × String) :=
  match splitOnChar '/' tail with
  | [a, b, s, c] =>
    if a ≠ [] ∧ b ≠ [] ∧ s = "src".data ∧ c ≠ [] then
      some (⟨a ++ '/' :: b⟩, ⟨c⟩) else none
  | [a, b, s, c, []] =>
    if a ≠ [] ∧ b ≠ [] ∧ s = "src".data ∧ c ≠ [] then
      some (⟨a ++ '/' :: b⟩, ⟨c⟩) else none
  | _ => none

/-- Core of ([^/]+/[^#/]+)/?#tags$ against the tail after the host: a
literal #tags at the end, before it an optional slash, before that two
segments, the second with no hash, group 1 returned. -/
def tagsTailCore (tail : List Char) : Option String :=
  let n := tail.length
  if 5 ≤ n ∧ tail.drop (n - 5) = "#tags".data then
    let core := tail.take (n - 5)
    let core2 := if core.getLast? = some '/' then core.dropLast else core
    match splitOnChar '/' core2 with
    | [a, b] =>
      if a ≠ [] ∧ b ≠ [] ∧ ('#' ∈ b) = False then some ⟨a ++ '/' :: b⟩ else none
    | _ => none
  else none

/-- Model of re.match against https?://bitbucket.org/([^/]+/[^/]+)/?$ as in
make_tags_url, make_branch_url and _user_repo_branch, returning group 1. -/
def repoUrlMatch (url : String) : Option String :=
  match bbHostRest url with
  | none => none
  | some tail => endAnchored repoTailCore tail

/-- Model of re.match against the branch pattern of _user_repo_branch,
returning the two groups. -/
def branchUrlMatch (url : String) : Option (String × String) :=
  match bbHostRest url with
  | none => none
  | some tail => endAnchored branchTailCore tail

/-- Model of re.match against the tags pattern of download_info (line 118),
returning group 1. -/
def tagsUrlMatch (url : String) : Option String :=
  match bbHostRest url with
  | none => none
  | some tail => endAnchored tagsTailCore tail

/-- Model of _user_repo_branch (lines 314 to 339): try the branch pattern,
then the bare repo pattern, else the pair of nones. -/
def _user_repo_branch (url : String) : Option String × Option String :=
  match branchUrlMatch url with
  | some (ur, br) => (some ur, some br)
  | none =>
    match repoUrlMatch url with
    | some ur => (some ur, none)
    | none => (none, none)

/-- UTF-8 encoding of one character as byte values. -/
def utf8Bytes (c : Char) : List Nat :=
  let n := c.toNat
  if n < 128 then [n]
  else if n < 2048 then [192 + n / 64, 128 + n % 64]
  else if n < 65536 then [224 + n / 4096, 128 + n / 64 % 64, 128 + n % 64]
  else [240 + n / 262144, 128 + n / 4096 % 64, 128 + n / 64 % 64, 128 + n % 64]

/-- Upper case hexadecimal digit. -/
def hexDigitU (n : Nat) : Char :=
  if n < 10 then Char.ofNat (48 + n) else Char.ofNat (55 + n)

/-- Percent encoding of one byte. -/
def pctByte (b : Nat) : List Char := ['%', hexDigitU (b / 16), hexDigitU (b % 16)]

/-- Characters urllib.parse.quote never encodes: unreserved characters plus
the default safe slash. -/
def quoteSafe (c : Char) : Bool :=
  (65 ≤ c.toNat && c.toNat ≤ 90) || (97 ≤ c.toNat && c.toNat ≤ 122) || isDigit09 c ||
    c = '_' || c = '.' || c = '-' || c = '~' || c = '/'

/-- Model of urllib.parse.quote with its default arguments. -/
def quote (s : String) : String :=
  ⟨s.data.foldr
    (fun c acc =>
      (if quoteSafe c then [c] else ((utf8Bytes c).map pctByte).flatten) ++ acc) []⟩

/-- Model of make_repo_url (lines 25 to 41); the template names the host
bitbucket.com. -/
def make_repo_url (owner_name repo_name : String) : String :=
  "https://bitbucket.com/" ++ quote owner_name ++ "/" ++ quote repo_name

/-- Model of make_tags_url (lines 43 to 60); none models the Python False
return, and the matched group is spliced verbatim. -/
def make_tags_url (repo_url : String) : Option String :=
  match repoUrlMatch repo_url with
  | none => none
  | some ur => some ("https://bitbucket.org/" ++ ur ++ "#tags")

/-- Model of make_branch_url (lines 62 to 82); only the branch argument
passes through quote. -/
def make_branch_url (repo_url branch : String) : Option String :=
  match repoUrlMatch repo_url with
  | none => none
  | some ur => some ("https://bitbucket.org/" ++ ur ++ "/src/" ++ quote branch)

/-- Model of _make_api_url (lines 258 to 272). -/
def _make_api_url (user_repo suffix : String) : String :=
  "https://api.bitbucket.org/2.0/repositories/" ++ user_repo ++ suffix

/-- Parsed tag information as produced by the version parsing collaborator;
pfx holds the stripped leading text (the source calls this dict key
prefix) so that pfx ++ version reconstructs the tag name. -/
structure TagInfo where
  version : String
  pfx : String
deriving DecidableEq

/-- Canonical decimal digit run: nonempty, all digits, and no leading zero
except for the single digit zero itself. -/
def canonDigits : List Char → Bool
  | [] => false
  | c :: rest => isDigit09 c && rest.all isDigit09 && (c ≠ '0' || rest.isEmpty)

/-- Numeric value of one digit character. -/
def digitVal (c : Char) : Nat := c.toNat - 48

/-- Numeric value of a digit run, most significant first. -/
def digitsVal (l : List Char) : Nat := l.foldl (fun a c => 10 * a + digitVal c) 0

/-- Modelled from the spec: validity of a version string as accepted by the
version parsing collaborator package_control.versions, which is not under
src. One or more dot separated numeric components, each canonical. -/
def validVersion (s : String) : Bool :=
  (splitOnChar '.' s.data).all canonDigits

/-- Modelled from the spec: the parsed form of a version string used for
ordering, the list of its numeric components. -/
def versionKey (s : String) : List Nat :=
  (splitOnChar '.' s.data).map digitsVal

/-- Strict lexicographic order on parsed versions, shorter lists first. -/
def verLt : List Nat → List Nat → Bool
  | [], [] => false
  | [], _ :: _ => true
  | _ :: _, [] => false
  | a :: as, b :: bs => a < b || (a = b && verLt as bs)

/-- Reflexive closure of verLt. -/
def verLe (x y : List Nat) : Bool := verLt x y || x == y

/-- Modelled from the spec: version_process of package_control.versions,
which is not under src. Each tag name whose remainder past the required
leading text is a valid version yields one entry; with no required text a
single leading v is stripped and recorded, so two tag names may yield the
same version. -/
def version_process (names : List String) (tagPfx : Option String) : List TagInfo :=
  names.filterMap (fun name =>
    match tagPfx with
    | some p =>
      match stripLit p.data name.data with
      | some rest => if validVersion ⟨rest⟩ then some ⟨⟨rest⟩, p⟩ else none
      | none => none
    | none =>
      match name.data with
      | 'v' :: rest => if validVersion ⟨rest⟩ then some ⟨⟨rest⟩, "v"⟩ else none
      | l => if validVersion ⟨l⟩ then some ⟨⟨l⟩, ""⟩ else none)

/-- Insertion of an element in front of the first entry it precedes. -/
def insertDesc (le : TagInfo → TagInfo → Bool) (x : TagInfo) :
    List TagInfo → List TagInfo
  | [] => [x]
  | y :: ys => if le x y then x :: y :: ys else y :: insertDesc le x ys

/-- Insertion sort by the given comparison. -/
def sortByLe (le : TagInfo → TagInfo → Bool) : List TagInfo → List TagInfo
  | [] => []
  | x :: xs => insertDesc le x (sortByLe le xs)

/-- Modelled from the spec: version_sort of package_control.versions with
reverse ordering, which is not under src: sort by parsed version, largest
first. -/
def version_sort (infos : List TagInfo) : List TagInfo :=
  sortByLe (fun a b => verLe (versionKey b.version) (versionKey a.version)) infos

/-- Insertion ordered association list modelling the Python dict that
collects tag names and timestamps. -/
abbrev TagMap := List (String × String)

/-- Python dict assignment: an existing key keeps its place, a new key goes
to the end. -/
def tmInsert : TagMap → String → String → TagMap
  | [], k, v => [(k, v)]
  | (k', v') :: rest, k, v =>
    if k' = k then (k', v) :: rest else (k', v') :: tmInsert rest k v

/-- Python dict indexing: KeyError when the key is absent. -/
def tmLookup : TagMap → String → Except Exc String
  | [], k => .error (.other ("KeyError: " ++ k))
  | (k', v) :: rest, k => if k' = k then .ok v else tmLookup rest k

/-- The type of the fetch_json collaborator: a URL and a prefer cached flag
yield a JSON document or a failure. -/
abbrev Fetch := String → Bool → Except Exc JSON

/-- Inner loop of the tags walk (lines 126 to 127): each entry stores the
processed timestamp of its target under its name. The timestamp expression
is evaluated before the name, as Python evaluates the assigned value before
the subscript of the target. -/
def addTags : List JSON → TagMap → Except Exc TagMap
  | [], acc => .ok acc
  | tag :: rest, acc =>
    match (jGet tag "target").bind (fun t => jGet t "date") with
    | .error e => .error e
    | .ok (.str date) =>
      match jGet tag "name" with
      | .error e => .error e
      | .ok (.str name) =>
        addTags rest (tmInsert acc name (replaceChar 'T' ' ' (pySlice19 date)))
      | .ok _ => .error (.other "TypeError: tag name is not a string")
    | .ok _ => .error (.other "TypeError: date is not a string")

/-- Pagination walk of the tags endpoint (lines 124 to 128): while the URL
is truthy, fetch the page, record its tags, move to its next link. The fuel
bounds the number of pages followed. -/
def tagsLoop (fetch : Fetch) : Nat → JSON → TagMap → Except Exc TagMap
  | fuel, turl, acc =>
    if jtruthy turl then
      match fuel with
      | 0 => .error .nonterm
      | fuel + 1 =>
        match turl with
        | .str u =>
          match fetch u false with
          | .error e => .error e
          | .ok tags_json =>
            match jGet tags_json "values" with
            | .error e => .error e
            | .ok (.arr tags) =>
              match addTags tags acc with
              | .error e => .error e
              | .ok acc => tagsLoop fetch fuel (jGetD tags_json "next" .null) acc
            | .ok _ => .error (.other "TypeError: values is not a list")
        | _ => .error (.other "TypeError: url is not a string")
    else .ok acc

/-- One release record of the download_info result list. -/
structure Release where
  url : String
  version : String
  date : String
deriving DecidableEq

/-- The zip download template of download_info (line 115). -/
def zipUrl (user_repo tag : String) : String :=
  "https://bitbucket.org/" ++ user_repo ++ "/get/" ++ tag ++ ".zip"

/-- Emission loop over the sorted tag information (lines 137 to 151): skip
versions already used, reconstruct the tag, look up its timestamp, and stop
once a nonzero max_releases is reached. -/
def emitLoop (user_repo : String) (tags_list : TagMap) (max_releases : Nat) :
    List TagInfo → List String → Except Exc (List Release)
  | [], _ => .ok []
  | info :: rest, used =>
    if used.contains info.version then
      emitLoop user_repo tags_list max_releases rest used
    else
      let tag := info.pfx ++ info.version
      match tmLookup tags_list tag with
      | .error e => .error e
      | .ok date =>
        let r : Release := ⟨zipUrl user_repo tag, info.version, date⟩
        let used' := used ++ [info.version]
        if 0 < max_releases ∧ max_releases ≤ used'.length then .ok [r]
        else
          match emitLoop user_repo tags_list max_releases rest used' with
          | .error e => .error e
          | .ok rs => .ok (r :: rs)

/-- The settings collaborator; the source reads
settings.get with key max_releases and default zero. -/
structure Settings where
  max_releases : Nat

/-- Return value of download_info: noMatch models Python None, noReleases
models Python False, releases models the list of dicts. -/
inductive DLResult where
  | noMatch
  | noReleases
  | releases (rs : List Release)
deriving DecidableEq

/-- Model of download_info (lines 84 to 174). -/
def download_info (fetch : Fetch) (settings : Settings) (fuel : Nat)
    (url : String) (tagPfx : Option String) : Except Exc DLResult :=
  match tagsUrlMatch url with
  | some user_repo =>
    match tagsLoop fetch fuel (.str (_make_api_url user_repo "/refs/tags?pagelen=100")) [] with
    | .error e => .error e
    | .ok tags_list =>
      let tag_info := version_sort (version_process (tags_list.map Prod.fst) tagPfx)
      if tag_info.isEmpty then .ok .noReleases
      else
        match emitLoop user_repo tags_list settings.max_releases tag_info [] with
        | .error e => .error e
        | .ok rs => .ok (.releases rs)
  | none =>
    match _user_repo_branch url with
    | (none, _) => .ok .noMatch
    | (some user_repo, brOpt) =>
      let branchR : Except Exc String :=
        match brOpt with
        | some b => .ok b
        | none =>
          match fetch (_make_api_url user_repo "") false with
          | .error e => .error e
          | .ok repoJ =>
            match jGet repoJ "mainbranch" with
            | .error e => .error e
            | .ok mb =>
              match jDictGetD mb "name" (.str "master") with
              | .error e => .error e
              | .ok (.str b) => .ok b
              | .ok _ => .error (.other "TypeError: branch name is not a string")
      match branchR with
      | .error e => .error e
      | .ok branch =>
        match fetch (_make_api_url user_repo ("/refs/branches/" ++ branch)) false with
        | .error e => .error e
        | .ok branch_info =>
          match (jGet branch_info "target").bind (fun t => jGet t "date") with
          | .error e => .error e
          | .ok (.str d) =>
            let timestamp := replaceChar 'T' ' ' (pySlice19 d)
            .ok (.releases [⟨zipUrl user_repo branch, dotTimestamp timestamp, timestamp⟩])
          | .ok _ => .error (.other "TypeError: date is not a string")

/-- Readme filename list (lines 10 to 20). -/
def _readme_filenames : List String :=
  ["readme", "readme.txt", "readme.md", "readme.mkd", "readme.mdown",
   "readme.markdown", "readme.textile", "readme.creole", "readme.rst"]

/-- Inner loop over one directory listing page (lines 302 to 304): the raw
URL of the first entry whose lower cased path is a known readme name. -/
def findReadme (user_repo branch : String) : List JSON → Except Exc (Option String)
  | [] => .ok none
  | entry :: rest =>
    match jGet entry "path" with
    | .error e => .error e
    | .ok (.str path) =>
      if _readme_filenames.contains (pyLower path) then
        .ok (some ("https://bitbucket.org/" ++ user_repo ++ "/raw/" ++ branch ++ "/" ++ path))
      else findReadme user_repo branch rest
    | .ok _ => .error (.other "AttributeError: path is not a string")

/-- Pagination walk of the directory listing (lines 299 to 306). -/
def readmeLoop (fetch : Fetch) (user_repo branch : String) (prefer_cached : Bool) :
    Nat → JSON → Except Exc (Option String)
  | fuel, lurl =>
    if jtruthy lurl then
      match fuel with
      | 0 => .error .nonterm
      | fuel + 1 =>
        match lurl with
        | .str u =>
          match fetch u prefer_cached with
          | .error e => .error e
          | .ok root_dir_info =>
            match jGet root_dir_info "values" with
            | .error e => .error e
            | .ok (.arr entries) =>
              match findReadme user_repo branch entries with
              | .error e => .error e
              | .ok (some r) => .ok (some r)
              | .ok none =>
                readmeLoop fetch user_repo branch prefer_cached fuel
                  (jGetD root_dir_info "next" .null)
            | .ok _ => .error (.other "TypeError: values is not a list")
        | _ => .error (.other "TypeError: url is not a string")
    else .ok none

/-- Model of _readme_url (lines 274 to 312): the walk runs under a try that
converts a DownloaderException whose message carries the 404 signature into
the no readme outcome and re-raises everything else. -/
def _readme_url (fetch : Fetch) (fuel : Nat) (user_repo branch : String)
    (prefer_cached : Bool) : Except Exc (Option String) :=
  match readmeLoop fetch user_repo branch prefer_cached fuel
      (.str (_make_api_url user_repo ("/src/" ++ branch ++ "/?pagelen=100"))) with
  | .ok r => .ok r
  | .error (.downloader msg) =>
    if strContains msg "HTTP error 404" then .ok none
    else .error (.downloader msg)
  | .error e => .error e

/-- Metadata record returned by repo_info; Python None is JSON.null in the
JSON valued fields and none in the option valued ones. -/
structure RepoMeta where
  name : JSON
  description : JSON
  homepage : JSON
  author : JSON
  donate : Option String
  readme : Option String
  issues : Option String

/-- Model of repo_info (lines 176 to 224), with field accesses in source
evaluation order: branch resolution, author lookups, then the dict literal
entries name, description, homepage, readme, has_issues. -/
def repo_info (fetch : Fetch) (fuel : Nat) (url : String) :
    Except Exc (Option RepoMeta) :=
  match _user_repo_branch url with
  | (none, _) => .ok none
  | (some user_repo, brOpt) =>
    match fetch (_make_api_url user_repo "") false with
    | .error e => .error e
    | .ok repoJ =>
      let branchR : Except Exc String :=
        match brOpt with
        | some b => .ok b
        | none =>
          match jGet repoJ "mainbranch" with
          | .error e => .error e
          | .ok mb =>
            match jDictGetD mb "name" (.str "master") with
            | .error e => .error e
            | .ok (.str b) => .ok b
            | .ok _ => .error (.other "TypeError: branch name is not a string")
      match branchR with
      | .error e => .error e
      | .ok branch =>
        let issues_url := "https://bitbucket.org/" ++ user_repo ++ "/issues"
        match jGet repoJ "owner" with
        | .error e => .error e
        | .ok owner =>
          let authorR : Except Exc JSON :=
            match jDictGetD owner "nickname" .null with
            | .error e => .error e
            | .ok .null => jDictGetD owner "username" .null
            | .ok nick => .ok nick
          match authorR with
          | .error e => .error e
          | .ok author =>
            match jGet repoJ "name" with
            | .error e => .error e
            | .ok nameJ =>
              match jGet repoJ "description" with
              | .error e => .error e
              | .ok descJ =>
                match jGet repoJ "website" with
                | .error e => .error e
                | .ok webJ =>
                  match _readme_url fetch fuel user_repo branch false with
                  | .error e => .error e
                  | .ok readme =>
                    match jGet repoJ "has_issues" with
                    | .error e => .error e
                    | .ok hasIssues =>
                      .ok (some ⟨nameJ,
                        (if jtruthy descJ then descJ else .str "No description provided"),
                        (if jtruthy webJ then webJ else .str url),
                        author, none, readme,
                        (if jtruthy hasIssues then some issues_url else none)⟩)

/-- Name of a tag entry, defaulting when malformed. -/
def tagName (t : JSON) : String :=
  match jGet t "name" with
  | .ok (.str s) => s
  | _ => ""

/-- Raw target date of a tag entry, defaulting when malformed. -/
def tagDate (t : JSON) : String :=
  match (jGet t "target").bind (fun x => jGet x "date") with
  | .ok (.str s) => s
  | _ => ""

/-- Wellformedness of one tag entry: a string name and a string target
date. -/
def wfTagEntry (t : JSON) : Bool :=
  (match (jGet t "target").bind (fun x => jGet x "date") with
   | .ok (.str _) => true
   | _ => false) &&
  (match jGet t "name" with
   | .ok (.str _) => true
   | _ => false)

/-- Values list of a page, defaulting when malformed. -/
def tagPageValues (p : JSON) : List JSON :=
  match jGet p "values" with
  | .ok (.arr l) => l
  | _ => []

/-- Wellformedness of one tags page: a list of wellformed entries under
values. -/
def wfTagPage (p : JSON) : Bool :=
  (match jGet p "values" with
   | .ok (.arr _) => true
   | _ => false) &&
  (tagPageValues p).all wfTagEntry

/-- Tag map update for one entry, as performed by the loop body. -/
def tagStep (acc : TagMap) (t : JSON) : TagMap :=
  tmInsert acc (tagName t) (replaceChar 'T' ' ' (pySlice19 (tagDate t)))

/-- Tag map collected from one page on top of an accumulator. -/
def pageMerge (acc : TagMap) (p : JSON) : TagMap :=
  (tagPageValues p).foldl tagStep acc

/-- Merge of the tag maps of all pages in order, starting empty. -/
def mergedTags (ps : List JSON) : TagMap := ps.foldl pageMerge []

/-- A finite chain of pages starting at a URL: every fetch succeeds, every
page but the last points to the next one through a truthy string next
field, and the last page has no truthy next field. -/
def pagesChain (fetch : Fetch) (pc : Bool) : String → List JSON → Prop
  | _, [] => False
  | u, [p] => fetch u pc = .ok p ∧ jtruthy (jGetD p "next" .null) = false
  | u, p :: q :: ps =>
    fetch u pc = .ok p ∧
      ∃ u', jGetD p "next" .null = .str u' ∧ u'.data ≠ [] ∧
        pagesChain fetch pc u' (q :: ps)

/-- Processing of a wellformed values list records exactly the fold of the
per entry updates. -/
theorem addTags_wf : ∀ (vals : List JSON) (acc : TagMap),
    vals.all wfTagEntry = true →
    addTags vals acc = .ok (vals.foldl tagStep acc)
  | [], _, _ => rfl
  | tag :: rest, acc, h => by
    simp only [List.all_cons, Bool.and_eq_true] at h
    obtain ⟨h1, h2⟩ := h
    unfold wfTagEntry at h1
    cases hd : (jGet tag "target").bind (fun x => jGet x "date") with
    | error e => rw [hd] at h1; simp at h1
    | ok dj =>
      cases dj with
      | str d =>
        rw [hd] at h1
        cases hn : jGet tag "name" with
        | error e => rw [hn] at h1; simp at h1
        | ok nj =>
          cases nj with
          | str name =>
            show addTags (tag :: rest) acc = _
            unfold addTags
            rw [hd, hn]
            dsimp only
            rw [addTags_wf rest _ h2]
            simp only [List.foldl_cons]
            unfold tagStep tagName tagDate
            rw [hd, hn]
          | null => rw [hn] at h1; simp at h1
          | bool b => rw [hn] at h1; simp at h1
          | num n => rw [hn] at h1; simp at h1
          | arr xs => rw [hn] at h1; simp at h1
          | obj fs => rw [hn] at h1; simp at h1
      | null => rw [hd] at h1; simp at h1
      | bool b => rw [hd] at h1; simp at h1
      | num n => rw [hd] at h1; simp at h1
      | arr xs => rw [hd] at h1; simp at h1
      | obj fs => rw [hd] at h1; simp at h1

/-- The tags pagination walk over a chain of wellformed pages returns the
fold of the page merges, given enough fuel. -/
theorem tagsLoop_chain (fetch : Fetch) : ∀ (ps : List JSON) (u : String)
    (acc : TagMap) (fuel : Nat),
    pagesChain fetch false u ps → (∀ p ∈ ps, wfTagPage p = true) →
    u.data ≠ [] → ps.length ≤ fuel →
    tagsLoop fetch fuel (.str u) acc = .ok (ps.foldl pageMerge acc)
  | [], _, _, _, hc, _, _, _ => absurd hc (by simp [pagesChain])
  | [p], u, acc, fuel, hc, hwf, hu, hfuel => by
    obtain ⟨hf, hnext⟩ := hc
    have hp : wfTagPage p = true := hwf p (by simp)
    unfold wfTagPage at hp
    simp only [Bool.and_eq_true] at hp
    obtain ⟨hp1, hp2⟩ := hp
    match fuel, hfuel with
    | fuel + 1, _ =>
      unfold tagsLoop
      have htr : jtruthy (.str u) = true := by
        simp [jtruthy, List.isEmpty_iff, hu]
      rw [if_pos htr]
      dsimp only
      rw [hf]
      dsimp only
      cases hv : jGet p "values" with
      | error e => rw [hv] at hp1; simp at hp1
      | ok vj =>
        cases vj with
        | arr l =>
          have hl : tagPageValues p = l := by unfold tagPageValues; rw [hv]
          dsimp only
          rw [addTags_wf l acc (hl ▸ hp2)]
          dsimp only
          unfold tagsLoop
          rw [hnext, if_neg (by simp)]
          simp [pageMerge, hl]
        | null => rw [hv] at hp1; simp at hp1
        | bool b => rw [hv] at hp1; simp at hp1
        | num n => rw [hv] at hp1; simp at hp1
        | str s => rw [hv] at hp1; simp at hp1
        | obj fs => rw [hv] at hp1; simp at hp1
  | p :: q :: ps, u, acc, fuel, hc, hwf, hu, hfuel => by
    obtain ⟨hf, u', hnext, hu', hchain⟩ := hc
    have hp : wfTagPage p = true := hwf p (by simp)
    unfold wfTagPage at hp
    simp only [Bool.and_eq_true] at hp
    obtain ⟨hp1, hp2⟩ := hp
    match fuel, hfuel with
    | fuel + 1, hfuel =>
      unfold tagsLoop
      have htr : jtruthy (.str u) = true := by
        simp [jtruthy, List.isEmpty_iff, hu]
      rw [if_pos htr]
      dsimp only
      rw [hf]
      dsimp only
      cases hv : jGet p "values" with
      | error e => rw [hv] at hp1; simp at hp1
      | ok vj =>
        cases vj with
        | arr l =>
          have hl : tagPageValues p = l := by unfold tagPageValues; rw [hv]
          dsimp only
          rw [addTags_wf l acc (hl ▸ hp2)]
          dsimp only
          rw [hnext]
          rw [tagsLoop_chain fetch (q :: ps) u' _ fuel hchain
            (fun r hr => hwf r (List.mem_cons_of_mem p hr)) hu' (by simpa using hfuel)]
          simp [pageMerge, hl]
        | null => rw [hv] at hp1; simp at hp1
        | bool b => rw [hv] at hp1; simp at hp1
        | num n => rw [hv] at hp1; simp at hp1
        | str s => rw [hv] at hp1; simp at hp1
        | obj fs => rw [hv] at hp1; simp at hp1

/-- Strings with equal character data are equal. -/
theorem strData_inj {s t : String} (h : s.data = t.data) : s = t := by
  cases s; cases t; exact congrArg String.mk h

/-- Strict lexicographic order is transitive. -/
theorem verLt_trans : ∀ (x y z : List Nat),
    verLt x y = true → verLt y z = true → verLt x z = true := by
  intro x
  induction x with
  | nil =>
    intro y z hxy hyz
    cases y <;> cases z <;> simp_all [verLt]
  | cons a as ih =>
    intro y z hxy hyz
    cases y with
    | nil => simp [verLt] at hxy
    | cons b bs =>
      cases z with
      | nil => simp [verLt] at hyz
      | cons c cs =>
        simp only [verLt, Bool.or_eq_true, Bool.and_eq_true, decide_eq_true_eq] at *
        rcases hxy with h1 | ⟨h1, h2⟩ <;> rcases hyz with h3 | ⟨h3, h4⟩
        · left; omega
        · left; omega
        · left; omega
        · right; exact ⟨by omega, ih bs cs h2 h4⟩

/-- Strict lexicographic order is total up to equality. -/
theorem verLt_total : ∀ (x y : List Nat),
    verLt x y = true ∨ verLt y x = true ∨ x = y := by
  intro x
  induction x with
  | nil =>
    intro y
    cases y <;> simp [verLt]
  | cons a as ih =>
    intro y
    cases y with
    | nil => simp [verLt]
    | cons b bs =>
      rcases Nat.lt_trichotomy a b with h | h | h
      · left; simp [verLt, h]
      · subst h
        rcases ih bs with h2 | h2 | h2
        · left; simp [verLt, h2]
        · right; left; simp [verLt, h2]
        · right; right; rw [h2]
      · right; left; simp [verLt, h]

/-- Strict lexicographic order is asymmetric. -/
theorem verLt_asymm : ∀ (x y : List Nat),
    verLt x y = true → verLt y x = true → False := by
  intro x
  induction x with
  | nil =>
    intro y hxy hyx
    cases y <;> simp_all [verLt]
  | cons a as ih =>
    intro y hxy hyx
    cases y with
    | nil => simp [verLt] at hxy
    | cons b bs =>
      simp only [verLt, Bool.or_eq_true, Bool.and_eq_true, decide_eq_true_eq] at *
      rcases hxy with h1 | ⟨h1, h2⟩ <;> rcases hyx with h3 | ⟨h3, h4⟩
      · omega
      · omega
      · omega
      · exact ih bs h2 h4

/-- The reflexive closure verLe is transitive. -/
theorem verLe_trans (x y z : List Nat) (h1 : verLe x y = true) (h2 : verLe y z = true) :
    verLe x z = true := by
  unfold verLe at *
  simp only [Bool.or_eq_true, beq_iff_eq] at *
  rcases h1 with h1 | h1 <;> rcases h2 with h2 | h2
  · exact Or.inl (verLt_trans x y z h1 h2)
  · subst h2; exact Or.inl h1
  · subst h1; exact Or.inl h2
  · subst h1; exact Or.inr h2

/-- The reflexive closure verLe is total. -/
theorem verLe_total (x y : List Nat) : (verLe x y || verLe y x) = true := by
  unfold verLe
  simp only [Bool.or_eq_true, beq_iff_eq]
  rcases verLt_total x y with h | h | h
  · exact Or.inl (Or.inl h)
  · exact Or.inr (Or.inl h)
  · exact Or.inl (Or.inr h)

/-- The reflexive closure verLe is antisymmetric. -/
theorem verLe_antisymm (x y : List Nat) (h1 : verLe x y = true) (h2 : verLe y x = true) :
    x = y := by
  unfold verLe at *
  simp only [Bool.or_eq_true, beq_iff_eq] at *
  rcases h1 with h1 | h1
  · rcases h2 with h2 | h2
    · exact absurd (verLt_asymm x y h1 h2) (by simp)
    · exact h2.symm
  · exact h1

/-- Deduplication of a list of version strings, keeping the first
occurrence of each, relative to a set of already seen strings. -/
def keepFirsts (seen : List String) : List String → List String
  | [] => []
  | v :: vs =>
    if seen.contains v then keepFirsts seen vs
    else v :: keepFirsts (seen ++ [v]) vs

/-- Emitted releases carry versions drawn in order from the sorted input. -/
theorem emitLoop_sublist (ur : String) (tl : TagMap) (m : Nat) :
    ∀ (infos : List TagInfo) (used : List String) (rs : List Release),
    emitLoop ur tl m infos used = .ok rs →
    (rs.map (fun r => r.version)).Sublist (infos.map (fun i => i.version))
  | [], _, rs, h => by
    unfold emitLoop at h
    cases h
    simp
  | info :: rest, used, rs, h => by
    unfold emitLoop at h
    cases hc : used.contains info.version with
    | true =>
      rw [hc] at h
      simp only [if_true] at h
      exact (emitLoop_sublist ur tl m rest used rs h).trans (by simp)
    | false =>
      rw [hc] at h
      simp only [Bool.false_eq_true, if_false] at h
      cases hlk : tmLookup tl (info.pfx ++ info.version) with
      | error e => rw [hlk] at h; cases h
      | ok date =>
        rw [hlk] at h
        dsimp only at h
        by_cases hm : 0 < m ∧ m ≤ (used ++ [info.version]).length
        · rw [if_pos hm] at h
          cases h
          simp
        · rw [if_neg hm] at h
          cases he : emitLoop ur tl m rest (used ++ [info.version]) with
          | error e => rw [he] at h; cases h
          | ok rs' =>
            rw [he] at h
            cases h
            simpa using emitLoop_sublist ur tl m rest _ rs' he

/-- Emitted versions avoid the used set and are pairwise distinct. -/
theorem emitLoop_nodup (ur : String) (tl : TagMap) (m : Nat) :
    ∀ (infos : List TagInfo) (used : List String) (rs : List Release),
    emitLoop ur tl m infos used = .ok rs →
    (∀ r ∈ rs, r.version ∉ used) ∧ (rs.map (fun r => r.version)).Nodup
  | [], _, rs, h => by
    unfold emitLoop at h
    cases h
    simp
  | info :: rest, used, rs, h => by
    unfold emitLoop at h
    cases hc : used.contains info.version with
    | true =>
      rw [hc] at h
      simp only [if_true] at h
      exact emitLoop_nodup ur tl m rest used rs h
    | false =>
      rw [hc] at h
      simp only [Bool.false_eq_true, if_false] at h
      have hnotmem : info.version ∉ used := by
        intro hmem
        rw [(by simpa using hmem : used.contains info.version = true)] at hc
        cases hc
      cases hlk : tmLookup tl (info.pfx ++ info.version) with
      | error e => rw [hlk] at h; cases h
      | ok date =>
        rw [hlk] at h
        dsimp only at h
        by_cases hm : 0 < m ∧ m ≤ (used ++ [info.version]).length
        · rw [if_pos hm] at h
          cases h
          constructor
          · intro r hr
            simp at hr
            rw [hr]
            exact hnotmem
          · simp
        · rw [if_neg hm] at h
          cases he : emitLoop ur tl m rest (used ++ [info.version]) with
          | error e => rw [he] at h; cases h
          | ok rs' =>
            rw [he] at h
            cases h
            obtain ⟨ih1, ih2⟩ := emitLoop_nodup ur tl m rest _ rs' he
            constructor
            · intro r hr
              rcases List.mem_cons.mp hr with hr | hr
              · rw [hr]; exact hnotmem
              · intro hmem
                exact ih1 r hr (by simp [hmem])
            · refine List.Nodup.cons ?_ ih2
              intro hmem
              simp only [List.mem_map] at hmem
              obtain ⟨r, hr, hv⟩ := hmem
              exact ih1 r hr (by simp [← hv])

/-- Any pairwise relation on versions transfers from the sorted input to the
emitted releases. -/
theorem emitLoop_pairwise (ur : String) (tl : TagMap) (m : Nat)
    (S : String → String → Prop) :
    ∀ (infos : List TagInfo) (used : List String) (rs : List Release),
    emitLoop ur tl m infos used = .ok rs →
    infos.Pairwise (fun i1 i2 => S i1.version i2.version) →
    rs.Pairwise (fun r1 r2 => S r1.version r2.version)
  | [], _, rs, h, _ => by
    unfold emitLoop at h
    cases h
    simp
  | info :: rest, used, rs, h, hpw => by
    unfold emitLoop at h
    rw [List.pairwise_cons] at hpw
    obtain ⟨hhead, htail⟩ := hpw
    cases hc : used.contains info.version with
    | true =>
      rw [hc] at h
      simp only [if_true] at h
      exact emitLoop_pairwise ur tl m S rest used rs h htail
    | false =>
      rw [hc] at h
      simp only [Bool.false_eq_true, if_false] at h
      cases hlk : tmLookup tl (info.pfx ++ info.version) with
      | error e => rw [hlk] at h; cases h
      | ok date =>
        rw [hlk] at h
        dsimp only at h
        by_cases hm : 0 < m ∧ m ≤ (used ++ [info.version]).length
        · rw [if_pos hm] at h
          cases h
          simp
        · rw [if_neg hm] at h
          cases he : emitLoop ur tl m rest (used ++ [info.version]) with
          | error e => rw [he] at h; cases h
          | ok rs' =>
            rw [he] at h
            cases h
            refine List.Pairwise.cons ?_ (emitLoop_pairwise ur tl m S rest _ rs' he htail)
            intro r hr
            have hsub := emitLoop_sublist ur tl m rest _ rs' he
            have : r.version ∈ rest.map (fun i => i.version) :=
              hsub.subset (List.mem_map_of_mem _ hr)
            obtain ⟨i, hi, hiv⟩ := List.mem_map.mp this
            exact hiv ▸ hhead i hi

/-- With a nonzero cap the emission loop emits at most the cap, counted
against what is already used. -/
theorem emitLoop_length (ur : String) (tl : TagMap) (m : Nat) (hm : 0 < m) :
    ∀ (infos : List TagInfo) (used : List String) (rs : List Release),
    used.length < m →
    emitLoop ur tl m infos used = .ok rs →
    rs.length ≤ m - used.length
  | [], _, rs, _, h => by
    unfold emitLoop at h
    cases h
    simp
  | info :: rest, used, rs, hlen, h => by
    unfold emitLoop at h
    cases hc : used.contains info.version with
    | true =>
      rw [hc] at h
      simp only [if_true] at h
      exact emitLoop_length ur tl m hm rest used rs hlen h
    | false =>
      rw [hc] at h
      simp only [Bool.false_eq_true, if_false] at h
      cases hlk : tmLookup tl (info.pfx ++ info.version) with
      | error e => rw [hlk] at h; cases h
      | ok date =>
        rw [hlk] at h
        dsimp only at h
        by_cases hcap : 0 < m ∧ m ≤ (used ++ [info.version]).length
        · rw [if_pos hcap] at h
          cases h
          simp only [List.length_singleton]
          omega
        · rw [if_neg hcap] at h
          cases he : emitLoop ur tl m rest (used ++ [info.version]) with
          | error e => rw [he] at h; cases h
          | ok rs' =>
            rw [he] at h
            cases h
            have hlen' : (used ++ [info.version]).length < m := by
              simp only [List.length_append, List.length_singleton]
              rcases Decidable.not_and_iff_or_not.mp hcap with hx | hx
              · omega
              · simp only [List.length_append, List.length_singleton] at hx
                omega
            have := emitLoop_length ur tl m hm rest _ rs' hlen' he
            simp only [List.length_append, List.length_singleton] at this
            simp only [List.length_cons]
            omega

/-- With cap zero the emission loop emits exactly the first occurrence of
every version. -/
theorem emitLoop_maxzero (ur : String) (tl : TagMap) :
    ∀ (infos : List TagInfo) (used : List String) (rs : List Release),
    emitLoop ur tl 0 infos used = .ok rs →
    rs.map (fun r => r.version) = keepFirsts used (infos.map (fun i => i.version))
  | [], _, rs, h => by
    unfold emitLoop at h
    cases h
    simp [keepFirsts]
  | info :: rest, used, rs, h => by
    unfold emitLoop at h
    simp only [List.map_cons]
    cases hc : used.contains info.version with
    | true =>
      rw [hc] at h
      simp only [if_true] at h
      rw [keepFirsts, if_pos hc]
      exact emitLoop_maxzero ur tl rest used rs h
    | false =>
      rw [hc] at h
      simp only [Bool.false_eq_true, if_false] at h
      cases hlk : tmLookup tl (info.pfx ++ info.version) with
      | error e => rw [hlk] at h; cases h
      | ok date =>
        rw [hlk] at h
        dsimp only at h
        rw [if_neg (by simp)] at h
        cases he : emitLoop ur tl 0 rest (used ++ [info.version]) with
        | error e => rw [he] at h; cases h
        | ok rs' =>
          rw [he] at h
          cases h
          rw [keepFirsts, if_neg (by rw [hc]; simp)]
          simp only [List.map_cons]
          rw [emitLoop_maxzero ur tl rest _ rs' he]

/-- The emission loop succeeds whenever every reconstructed tag can be
looked up. -/
theorem emitLoop_total (ur : String) (tl : TagMap) (m : Nat) :
    ∀ (infos : List TagInfo) (used : List String),
    (∀ i ∈ infos, ∃ d, tmLookup tl (i.pfx ++ i.version) = .ok d) →
    ∃ rs, emitLoop ur tl m infos used = .ok rs
  | [], used, _ => ⟨[], rfl⟩
  | info :: rest, used, hlk => by
    unfold emitLoop
    cases hc : used.contains info.version with
    | true =>
      simp only [if_true]
      exact emitLoop_total ur tl m rest used (fun i hi => hlk i (by simp [hi]))
    | false =>
      simp only [Bool.false_eq_true, if_false]
      obtain ⟨d, hd⟩ := hlk info (by simp)
      rw [hd]
      dsimp only
      by_cases hcap : 0 < m ∧ m ≤ (used ++ [info.version]).length
      · rw [if_pos hcap]
        exact ⟨_, rfl⟩
      · rw [if_neg hcap]
        obtain ⟨rs', hrs'⟩ :=
          emitLoop_total ur tl m rest (used ++ [info.version])
            (fun i hi => hlk i (by simp [hi]))
        rw [hrs']
        exact ⟨_, rfl⟩

/-- Every emitted release is built from the first entry of the sorted input
carrying its version: the tag is that entry's reconstruction, the date its
looked up timestamp, the URL the zip template instance. -/
theorem emitLoop_find (ur : String) (tl : TagMap) (m : Nat) :
    ∀ (infos : List TagInfo) (used : List String) (rs : List Release),
    emitLoop ur tl m infos used = .ok rs →
    ∀ r ∈ rs, ∃ info,
      infos.find? (fun i => i.version == r.version) = some info ∧
      r.version = info.version ∧
      r.url = zipUrl ur (info.pfx ++ info.version) ∧
      tmLookup tl (info.pfx ++ info.version) = .ok r.date
  | [], _, rs, h => by
    unfold emitLoop at h
    cases h
    simp
  | info :: rest, used, rs, h => by
    intro r hr
    have hused := (emitLoop_nodup ur tl m (info :: rest) used rs h).1 r hr
    unfold emitLoop at h
    cases hc : used.contains info.version with
    | true =>
      rw [hc] at h
      simp only [if_true] at h
      have hne : info.version ≠ r.version := by
        intro he2
        apply hused
        rw [← he2]
        simpa using hc
      obtain ⟨i, hfind, hrest⟩ := emitLoop_find ur tl m rest used rs h r hr
      exact ⟨i, by
        rw [List.find?_cons_of_neg _ (by simp [hne])]
        exact hfind, hrest⟩
    | false =>
      rw [hc] at h
      simp only [Bool.false_eq_true, if_false] at h
      cases hlk : tmLookup tl (info.pfx ++ info.version) with
      | error e => rw [hlk] at h; cases h
      | ok date =>
        rw [hlk] at h
        dsimp only at h
        by_cases hcap : 0 < m ∧ m ≤ (used ++ [info.version]).length
        · rw [if_pos hcap] at h
          cases h
          simp only [List.mem_singleton] at hr
          subst hr
          exact ⟨info, by rw [List.find?_cons_of_pos _ (by simp)], rfl, rfl, hlk⟩
        · rw [if_neg hcap] at h
          cases he : emitLoop ur tl m rest (used ++ [info.version]) with
          | error e => rw [he] at h; cases h
          | ok rs' =>
            rw [he] at h
            cases h
            rcases List.mem_cons.mp hr with hre | hre
            · subst hre
              exact ⟨info, by rw [List.find?_cons_of_pos _ (by simp)], rfl, rfl, hlk⟩
            · have hne : info.version ≠ r.version := by
                intro hveq
                exact (emitLoop_nodup ur tl m rest _ rs' he).1 r hre (by simp [hveq])
              obtain ⟨i, hfind, hrest⟩ := emitLoop_find ur tl m rest _ rs' he r hre
              exact ⟨i, by
                rw [List.find?_cons_of_neg _ (by simp [hne])]
                exact hfind, hrest⟩

/-- Membership in an insertion. -/
theorem mem_insertDesc (le : TagInfo → TagInfo → Bool) (x b : TagInfo) :
    ∀ (l : List TagInfo), b ∈ insertDesc le x l ↔ b = x ∨ b ∈ l
  | [] => by simp [insertDesc]
  | y :: ys => by
    unfold insertDesc
    by_cases hxy : le x y = true
    · rw [if_pos hxy]
      simp only [List.mem_cons]
    · rw [if_neg hxy]
      simp only [List.mem_cons, mem_insertDesc le x b ys]
      tauto

/-- Insertion into a sorted list keeps it sorted, for a total transitive
comparison. -/
theorem pairwise_insertDesc (le : TagInfo → TagInfo → Bool)
    (htot : ∀ a b, (le a b || le b a) = true)
    (htrans : ∀ a b c, le a b = true → le b c = true → le a c = true)
    (x : TagInfo) : ∀ (l : List TagInfo),
    l.Pairwise (fun a b => le a b = true) →
    (insertDesc le x l).Pairwise (fun a b => le a b = true)
  | [], _ => by simp [insertDesc]
  | y :: ys, hp => by
    rw [List.pairwise_cons] at hp
    obtain ⟨hy, hys⟩ := hp
    unfold insertDesc
    by_cases hxy : le x y = true
    · rw [if_pos hxy]
      refine List.Pairwise.cons ?_ (List.Pairwise.cons hy hys)
      intro b hb
      rcases List.mem_cons.mp hb with hb | hb
      · rw [hb]
        exact hxy
      · exact htrans x y b hxy (hy b hb)
    · rw [if_neg hxy]
      have hyx : le y x = true := by
        rcases Bool.or_eq_true_iff.mp (htot x y) with h | h
        · exact absurd h hxy
        · exact h
      refine List.Pairwise.cons ?_ (pairwise_insertDesc le htot htrans x ys hys)
      intro b hb
      rcases (mem_insertDesc le x b ys).mp hb with hb | hb
      · rw [hb]
        exact hyx
      · exact hy b hb

/-- The sorted tag information is pairwise nonincreasing on parsed
versions. -/
theorem version_sort_sorted (infos : List TagInfo) :
    (version_sort infos).Pairwise
      (fun a b => verLe (versionKey b.version) (versionKey a.version) = true) := by
  unfold version_sort
  induction infos with
  | nil => simp [sortByLe]
  | cons x xs ih =>
    exact pairwise_insertDesc _
      (fun a b => verLe_total (versionKey b.version) (versionKey a.version))
      (fun a b c hab hbc => verLe_trans _ _ _ hbc hab) x _ ih

/-- Sorting preserves membership. -/
theorem version_sort_mem {i : TagInfo} {infos : List TagInfo} :
    i ∈ version_sort infos ↔ i ∈ infos := by
  unfold version_sort
  induction infos with
  | nil => simp [sortByLe]
  | cons x xs ih =>
    show i ∈ insertDesc _ x (sortByLe _ xs) ↔ _
    rw [mem_insertDesc]
    simp only [List.mem_cons]
    tauto

/-- Stripping a literal recovers a decomposition of the input. -/
theorem stripLit_some : ∀ (pat l rest : List Char),
    stripLit pat l = some rest → l = pat ++ rest
  | [], l, rest, h => by
    unfold stripLit at h
    cases h
    rfl
  | _ :: _, [], _, h => by cases h
  | c :: cs, d :: ds, rest, h => by
    unfold stripLit at h
    by_cases hd : d = c
    · rw [if_pos hd] at h
      rw [hd, List.cons_append]
      exact congrArg _ (stripLit_some cs ds rest h)
    · rw [if_neg hd] at h
      cases h

/-- Every processed entry reconstructs one of the input names and carries a
valid version. -/
theorem version_process_mem (names : List String) (tagPfx : Option String) :
    ∀ i ∈ version_process names tagPfx,
      (i.pfx ++ i.version) ∈ names ∧ validVersion i.version = true := by
  intro i hi
  unfold version_process at hi
  rw [List.mem_filterMap] at hi
  obtain ⟨name, hname, hmap⟩ := hi
  cases tagPfx with
  | some p =>
    dsimp only at hmap
    cases hs : stripLit p.data name.data with
    | none => rw [hs] at hmap; cases hmap
    | some rest =>
      rw [hs] at hmap
      dsimp only at hmap
      by_cases hv : validVersion (⟨rest⟩ : String) = true
      · rw [if_pos hv] at hmap
        cases hmap
        refine ⟨?_, hv⟩
        have hdec : (p ++ (⟨rest⟩ : String)) = name :=
          strData_inj (by rw [String.data_append]; exact (stripLit_some _ _ _ hs).symm)
        simpa [hdec] using hname
      · rw [if_neg hv] at hmap
        cases hmap
  | none =>
    dsimp only at hmap
    split at hmap
    case h_1 rest heq =>
      by_cases hv : validVersion (⟨rest⟩ : String) = true
      · rw [if_pos hv] at hmap
        cases hmap
        refine ⟨?_, hv⟩
        have hdec : (("v" : String) ++ (⟨rest⟩ : String)) = name :=
          strData_inj (by rw [String.data_append]; exact heq.symm)
        simpa [hdec] using hname
      · rw [if_neg hv] at hmap
        cases hmap
    case h_2 l heq =>
      by_cases hv : validVersion (⟨name.data⟩ : String) = true
      · rw [if_pos hv] at hmap
        cases hmap
        refine ⟨?_, hv⟩
        have hdec : (("" : String) ++ (⟨name.data⟩ : String)) = name :=
          strData_inj (by simp [String.data_append])
        simpa [hdec] using hname
      · rw [if_neg hv] at hmap
        cases hmap

/-- A key present in the map can be looked up. -/
theorem tmLookup_mem_keys : ∀ (m : TagMap) (k : String),
    k ∈ m.map Prod.fst → ∃ d, tmLookup m k = .ok d
  | [], k, h => by simp at h
  | (k', v) :: rest, k, h => by
    unfold tmLookup
    by_cases he : k' = k
    · rw [if_pos he]
      exact ⟨v, rfl⟩
    · rw [if_neg he]
      apply tmLookup_mem_keys rest k
      simp only [List.map_cons, List.mem_cons] at h
      rcases h with h | h
      · exact absurd h.symm he
      · exact h

/-- The API URL is never the empty string. -/
theorem apiUrl_ne_nil (ur sfx : String) : (_make_api_url ur sfx).data ≠ [] := by
  intro h
  unfold _make_api_url at h
  rw [String.data_append, String.data_append, List.append_eq_nil, List.append_eq_nil] at h
  have h2 : ("https://api.bitbucket.org/2.0/repositories/" : String).data.length = 43 := rfl
  rw [h.1.1] at h2
  simp at h2

/-- On a matched tags URL with a wellformed page chain, download_info
reduces to the pure pipeline over the merged tag map. -/
theorem download_info_tags_eq (fetch : Fetch) (settings : Settings) (fuel : Nat)
    (url ur : String) (tagPfx : Option String) (ps : List JSON)
    (hmatch : tagsUrlMatch url = some ur)
    (hchain : pagesChain fetch false (_make_api_url ur "/refs/tags?pagelen=100") ps)
    (hwf : ∀ p ∈ ps, wfTagPage p = true)
    (hfuel : ps.length ≤ fuel) :
    download_info fetch settings fuel url tagPfx =
      (if (version_sort (version_process ((mergedTags ps).map Prod.fst) tagPfx)).isEmpty
       then .ok .noReleases
       else
         match emitLoop ur (mergedTags ps) settings.max_releases
             (version_sort (version_process ((mergedTags ps).map Prod.fst) tagPfx)) [] with
         | .error e => .error e
         | .ok rs => .ok (.releases rs)) := by
  unfold download_info
  rw [hmatch]
  dsimp only
  rw [tagsLoop_chain fetch ps _ [] fuel hchain hwf (apiUrl_ne_nil ur _) hfuel]
  rfl

/-- Characters with the same code point are equal. -/
theorem char_toNat_inj {a b : Char} (h : a.toNat = b.toNat) : a = b := by
  have h2 : Char.ofNat a.toNat = Char.ofNat b.toNat := by rw [h]
  rwa [Char.ofNat_toNat, Char.ofNat_toNat] at h2

/-- The fold computing a digit run value in terms of little endian digits. -/
theorem digitsVal_eq_ofDigits : ∀ (l : List Char) (acc : Nat),
    l.foldl (fun a c => 10 * a + digitVal c) acc
      = acc * 10 ^ l.length + Nat.ofDigits 10 (l.map digitVal).reverse
  | [], acc => by simp [Nat.ofDigits_nil]
  | c :: rest, acc => by
    simp only [List.foldl_cons, List.length_cons, List.map_cons, List.reverse_cons]
    rw [digitsVal_eq_ofDigits rest (10 * acc + digitVal c), Nat.ofDigits_append]
    simp only [List.length_reverse, List.length_map, Nat.ofDigits_singleton]
    ring

/-- The digit run value as little endian digits. -/
theorem digitsVal_ofDigits (l : List Char) :
    digitsVal l = Nat.ofDigits 10 (l.map digitVal).reverse := by
  have := digitsVal_eq_ofDigits l 0
  simpa [digitsVal] using this

/-- Digit characters have digit values under ten. -/
theorem digitVal_lt (c : Char) (h : isDigit09 c = true) : digitVal c < 10 := by
  unfold isDigit09 at h
  simp only [Bool.and_eq_true, decide_eq_true_eq] at h
  unfold digitVal
  omega

/-- Distinct digit characters have distinct values. -/
theorem digitVal_inj {a b : Char} (ha : isDigit09 a = true) (hb : isDigit09 b = true)
    (h : digitVal a = digitVal b) : a = b := by
  unfold isDigit09 at ha hb
  simp only [Bool.and_eq_true, decide_eq_true_eq] at ha hb
  unfold digitVal at h
  exact char_toNat_inj (by omega)

/-- Digit runs with equal value maps are equal. -/
theorem digitRun_inj : ∀ (x y : List Char),
    (∀ c ∈ x, isDigit09 c = true) → (∀ c ∈ y, isDigit09 c = true) →
    x.map digitVal = y.map digitVal → x = y
  | [], [], _, _, _ => rfl
  | [], _ :: _, _, _, h => by simp at h
  | _ :: _, [], _, _, h => by simp at h
  | c :: cs, d :: ds, hx, hy, h => by
    simp only [List.map_cons, List.cons.injEq] at h
    rw [digitVal_inj (hx c (by simp)) (hy d (by simp)) h.1,
      digitRun_inj cs ds (fun e he => hx e (by simp [he]))
        (fun e he => hy e (by simp [he])) h.2]

/-- Breakdown of a canonical digit run. -/
theorem canonDigits_parts : ∀ (l : List Char), canonDigits l = true →
    l ≠ [] ∧ (∀ c ∈ l, isDigit09 c = true) ∧ (∀ c rest, l = c :: rest → c = '0' → rest = [])
  | [], h => by cases h
  | c :: rest, h => by
    unfold canonDigits at h
    simp only [Bool.and_eq_true, Bool.or_eq_true, decide_eq_true_eq, List.all_eq_true] at h
    refine ⟨by simp, ?_, ?_⟩
    · intro e he
      rcases List.mem_cons.mp he with he | he
      · rw [he]; exact h.1.1
      · exact h.1.2 e he
    · intro c' rest' heq hzero
      cases heq
      rcases h.2 with h2 | h2
      · exact absurd hzero h2
      · simpa using h2

/-- A canonical digit run with value zero is the single zero digit. -/
theorem canonDigits_zero : ∀ (l : List Char), canonDigits l = true →
    digitsVal l = 0 → l = ['0']
  | [], h, _ => by cases h
  | c :: rest, h, hv => by
    obtain ⟨-, hdig, hzero⟩ := canonDigits_parts (c :: rest) h
    rw [digitsVal_ofDigits] at hv
    simp only [List.map_cons, List.reverse_cons] at hv
    rw [Nat.ofDigits_append, Nat.ofDigits_singleton] at hv
    have hc : digitVal c = 0 := by
      have hb : 10 ^ ((rest.map digitVal).reverse.length) * digitVal c = 0 := by omega
      rcases Nat.mul_eq_zero.mp hb with h10 | h0
      · exact absurd h10 (pow_pos (by omega : (0:ℕ) < 10) _).ne'
      · exact h0
    have hc0 : c = '0' := digitVal_inj (hdig c (by simp)) (by decide)
      (by simpa [digitVal] using hc)
    rw [hzero c rest rfl hc0, hc0]

/-- Canonical digit runs with equal values are equal. -/
theorem canonDigits_inj (x y : List Char) (hx : canonDigits x = true)
    (hy : canonDigits y = true) (h : digitsVal x = digitsVal y) : x = y := by
  obtain ⟨hxne, hxdig, hxzero⟩ := canonDigits_parts x hx
  obtain ⟨hyne, hydig, hyzero⟩ := canonDigits_parts y hy
  by_cases hx0 : digitsVal x = 0
  · rw [canonDigits_zero x hx hx0, canonDigits_zero y hy (by omega)]
  · have hlast : ∀ (l : List Char), canonDigits l = true → digitsVal l ≠ 0 →
        ∀ (hne : (l.map digitVal).reverse ≠ []),
          ((l.map digitVal).reverse).getLast hne ≠ 0 := by
      intro l hl hv hne
      obtain ⟨hlne, hldig, hlzero⟩ := canonDigits_parts l hl
      cases l with
      | nil => simp at hne
      | cons c rest =>
        simp only [List.map_cons, List.reverse_cons]
        rw [List.getLast_concat]
        intro hc
        have hc0 : c = '0' := digitVal_inj (hldig c (by simp)) (by decide)
          (by simpa [digitVal] using hc)
        have := hlzero c rest rfl hc0
        subst this hc0
        exact hv (by decide)
    have hxd : Nat.digits 10 (digitsVal x) = (x.map digitVal).reverse := by
      rw [digitsVal_ofDigits]
      exact Nat.digits_ofDigits 10 (by omega) _
        (by intro m hm
            simp only [List.mem_reverse, List.mem_map] at hm
            obtain ⟨c, hc, hcv⟩ := hm
            exact hcv ▸ digitVal_lt c (hxdig c hc))
        (fun hne => hlast x hx hx0 hne)
    have hyd : Nat.digits 10 (digitsVal y) = (y.map digitVal).reverse := by
      rw [digitsVal_ofDigits]
      exact Nat.digits_ofDigits 10 (by omega) _
        (by intro m hm
            simp only [List.mem_reverse, List.mem_map] at hm
            obtain ⟨c, hc, hcv⟩ := hm
            exact hcv ▸ digitVal_lt c (hydig c hc))
        (fun hne => hlast y hy (by omega) hne)
    have : (x.map digitVal).reverse = (y.map digitVal).reverse := by
      rw [← hxd, ← hyd, h]
    exact digitRun_inj x y hxdig hydig (List.reverse_inj.mp this)

/-- The split of a character list is never empty. -/
theorem splitOnChar_ne_nil (sep : Char) : ∀ (l : List Char), splitOnChar sep l ≠ []
  | [] => by simp [splitOnChar]
  | c :: rest => by
    unfold splitOnChar
    by_cases hc : c = sep
    · rw [if_pos hc]; simp
    · rw [if_neg hc]
      cases hs : splitOnChar sep rest with
      | nil => simp
      | cons h t => simp

/-- Joining the split recovers the input. -/
theorem joinOnChar_splitOnChar (sep : Char) : ∀ (l : List Char),
    joinOnChar sep (splitOnChar sep l) = l
  | [] => rfl
  | c :: rest => by
    unfold splitOnChar
    by_cases hc : c = sep
    · rw [if_pos hc]
      cases hs : splitOnChar sep rest with
      | nil => exact absurd hs (splitOnChar_ne_nil sep rest)
      | cons h t =>
        show joinOnChar sep ([] :: h :: t) = c :: rest
        unfold joinOnChar
        have := joinOnChar_splitOnChar sep rest
        rw [hs] at this
        rw [List.nil_append, this, hc]
    · rw [if_neg hc]
      cases hs : splitOnChar sep rest with
      | nil => exact absurd hs (splitOnChar_ne_nil sep rest)
      | cons h t =>
        have := joinOnChar_splitOnChar sep rest
        rw [hs] at this
        cases t with
        | nil =>
          show joinOnChar sep [c :: h] = c :: rest
          unfold joinOnChar
          rw [← this]
          rfl
        | cons h2 t2 =>
          show joinOnChar sep ((c :: h) :: h2 :: t2) = c :: rest
          unfold joinOnChar
          rw [List.cons_append, ← this]
          rfl

/-- The split map is injective. -/
theorem splitOnChar_inj (sep : Char) {l1 l2 : List Char}
    (h : splitOnChar sep l1 = splitOnChar sep l2) : l1 = l2 := by
  rw [← joinOnChar_splitOnChar sep l1, ← joinOnChar_splitOnChar sep l2, h]

/-- Lists of canonical digit runs with equal value maps are equal. -/
theorem comps_inj : ∀ (xs ys : List (List Char)),
    (∀ x ∈ xs, canonDigits x = true) → (∀ y ∈ ys, canonDigits y = true) →
    xs.map digitsVal = ys.map digitsVal → xs = ys
  | [], [], _, _, _ => rfl
  | [], _ :: _, _, _, h => by simp at h
  | _ :: _, [], _, _, h => by simp at h
  | x :: xs, y :: ys, hx, hy, h => by
    simp only [List.map_cons, List.cons.injEq] at h
    rw [canonDigits_inj x y (hx x (by simp)) (hy y (by simp)) h.1,
      comps_inj xs ys (fun e he => hx e (by simp [he]))
        (fun e he => hy e (by simp [he])) h.2]

/-- On valid version strings the parsed key determines the string: the
modelled version syntax is canonical. -/
theorem versionKey_inj {a b : String} (ha : validVersion a = true)
    (hb : validVersion b = true) (h : versionKey a = versionKey b) : a = b := by
  unfold validVersion at ha hb
  unfold versionKey at h
  simp only [List.all_eq_true] at ha hb
  exact strData_inj (splitOnChar_inj '.' (comps_inj _ _ ha hb h))

/-- Emitted releases carry valid versions drawn from the processed tags. -/
theorem emitted_valid (tl : TagMap) (tagPfx : Option String) (ur : String)
    (m : Nat) (rs : List Release)
    (hrs : emitLoop ur tl m (version_sort (version_process (tl.map Prod.fst) tagPfx)) [] = .ok rs) :
    ∀ r ∈ rs, validVersion r.version = true := by
  intro r hr
  obtain ⟨info, hfind, hv, -, -⟩ :=
    emitLoop_find ur tl m _ [] rs hrs r hr
  have hmem : info ∈ version_sort (version_process (tl.map Prod.fst) tagPfx) :=
    List.mem_of_find?_eq_some hfind
  have := (version_process_mem _ _ info (version_sort_mem.mp hmem)).2
  rw [hv]
  exact this

/-- Claim C2: on a tags URL the tag pages are merged across the next chain
into one mapping, and the result is a release list strictly descending on
parsed versions, with pairwise distinct versions, each release built from
the first sorted entry carrying its version, with the timestamp looked up
in the merged mapping. -/
theorem claim_C2 (fetch : Fetch) (settings : Settings) (fuel : Nat)
    (url ur : String) (tagPfx : Option String) (ps : List JSON)
    (hmatch : tagsUrlMatch url = some ur)
    (hchain : pagesChain fetch false (_make_api_url ur "/refs/tags?pagelen=100") ps)
    (hwf : ∀ p ∈ ps, wfTagPage p = true)
    (hfuel : ps.length ≤ fuel)
    (hne : version_sort (version_process ((mergedTags ps).map Prod.fst) tagPfx) ≠ []) :
    ∃ rs, download_info fetch settings fuel url tagPfx = .ok (.releases rs) ∧
      rs.Pairwise (fun r1 r2 => verLt (versionKey r2.version) (versionKey r1.version) = true) ∧
      (rs.map (fun r => r.version)).Nodup ∧
      ∀ r ∈ rs, ∃ info,
        (version_sort (version_process ((mergedTags ps).map Prod.fst) tagPfx)).find?
            (fun i => i.version == r.version) = some info ∧
        r.version = info.version ∧
        r.url = zipUrl ur (info.pfx ++ info.version) ∧
        tmLookup (mergedTags ps) (info.pfx ++ info.version) = .ok r.date := by
  have hlk : ∀ i ∈ version_sort (version_process ((mergedTags ps).map Prod.fst) tagPfx),
      ∃ d, tmLookup (mergedTags ps) (i.pfx ++ i.version) = .ok d := by
    intro i hi
    exact tmLookup_mem_keys _ _
      (version_process_mem _ _ i (version_sort_mem.mp hi)).1
  obtain ⟨rs, hrs⟩ := emitLoop_total ur (mergedTags ps) settings.max_releases _ [] hlk
  have heq := download_info_tags_eq fetch settings fuel url ur tagPfx ps hmatch hchain hwf hfuel
  rw [if_neg (by simpa [List.isEmpty_iff] using hne), hrs] at heq
  have hvalid := emitted_valid (mergedTags ps) tagPfx ur settings.max_releases rs hrs
  have hpw := emitLoop_pairwise ur (mergedTags ps) settings.max_releases
    (fun v1 v2 => verLe (versionKey v2) (versionKey v1) = true) _ [] rs hrs
    (version_sort_sorted _)
  have hnd := (emitLoop_nodup ur (mergedTags ps) settings.max_releases _ [] rs hrs).2
  have hndp : rs.Pairwise (fun r1 r2 => r1.version ≠ r2.version) :=
    List.pairwise_map.mp hnd
  refine ⟨rs, heq, ?_, hnd, emitLoop_find ur (mergedTags ps) settings.max_releases _ [] rs hrs⟩
  refine List.Pairwise.imp_of_mem ?_ (hpw.and hndp)
  intro r1 r2 h1 h2 hR
  obtain ⟨hle, hneq⟩ := hR
  unfold verLe at hle
  rcases Bool.or_eq_true_iff.mp hle with hlt | hbe
  · exact hlt
  · exact absurd
      (versionKey_inj (hvalid r2 h2) (hvalid r1 h1) (by simpa using hbe)).symm hneq

/-- Claim C3: on a tags URL the release list respects the max_releases cap
when it is nonzero and is the full deduplicated version list when the cap
is zero. -/
theorem claim_C3 (fetch : Fetch) (settings : Settings) (fuel : Nat)
    (url ur : String) (tagPfx : Option String) (ps : List JSON)
    (hmatch : tagsUrlMatch url = some ur)
    (hchain : pagesChain fetch false (_make_api_url ur "/refs/tags?pagelen=100") ps)
    (hwf : ∀ p ∈ ps, wfTagPage p = true)
    (hfuel : ps.length ≤ fuel)
    (hne : version_sort (version_process ((mergedTags ps).map Prod.fst) tagPfx) ≠ []) :
    ∃ rs, download_info fetch settings fuel url tagPfx = .ok (.releases rs) ∧
      (settings.max_releases ≠ 0 → rs.length ≤ settings.max_releases) ∧
      (settings.max_releases = 0 →
        rs.map (fun r => r.version) =
          keepFirsts []
            ((version_sort (version_process ((mergedTags ps).map Prod.fst) tagPfx)).map
              (fun i => i.version))) := by
  have hlk : ∀ i ∈ version_sort (version_process ((mergedTags ps).map Prod.fst) tagPfx),
      ∃ d, tmLookup (mergedTags ps) (i.pfx ++ i.version) = .ok d := by
    intro i hi
    exact tmLookup_mem_keys _ _
      (version_process_mem _ _ i (version_sort_mem.mp hi)).1
  obtain ⟨rs, hrs⟩ := emitLoop_total ur (mergedTags ps) settings.max_releases _ [] hlk
  have heq := download_info_tags_eq fetch settings fuel url ur tagPfx ps hmatch hchain hwf hfuel
  rw [if_neg (by simpa [List.isEmpty_iff] using hne), hrs] at heq
  refine ⟨rs, heq, ?_, ?_⟩
  · intro hm
    have := emitLoop_length ur (mergedTags ps) settings.max_releases
      (by omega) _ [] rs (by simp; omega) hrs
    simpa using this
  · intro hm
    rw [hm] at hrs
    exact emitLoop_maxzero ur (mergedTags ps) _ [] rs hrs

/-- Claim C4: on a tags URL whose tags all fail version parsing, the result
is the boolean false sentinel, a value distinct from the none of a non
match and from an empty release list. -/
theorem claim_C4 (fetch : Fetch) (settings : Settings) (fuel : Nat)
    (url ur : String) (tagPfx : Option String) (ps : List JSON)
    (hmatch : tagsUrlMatch url = some ur)
    (hchain : pagesChain fetch false (_make_api_url ur "/refs/tags?pagelen=100") ps)
    (hwf : ∀ p ∈ ps, wfTagPage p = true)
    (hfuel : ps.length ≤ fuel)
    (hempty : version_process ((mergedTags ps).map Prod.fst) tagPfx = []) :
    download_info fetch settings fuel url tagPfx = .ok .noReleases ∧
      DLResult.noReleases ≠ DLResult.noMatch ∧
      ∀ rs, DLResult.noReleases ≠ DLResult.releases rs := by
  have heq := download_info_tags_eq fetch settings fuel url ur tagPfx ps hmatch hchain hwf hfuel
  rw [hempty] at heq
  simp only [version_sort, sortByLe, List.isEmpty_nil, if_true] at heq
  exact ⟨heq, by simp, fun rs => by simp⟩

/-- Recognition of any of the three accepted URL shapes: tags marker, repo
with branch, bare repo. -/
def matchesAnyShape (url : String) : Bool :=
  (tagsUrlMatch url).isSome || (_user_repo_branch url).1.isSome

/-- Claim C1: a URL matching none of the three accepted shapes yields the
none outcome from both download_info and repo_info, as a normal return for
any fetch collaborator, any settings and any fuel, never an error. -/
theorem claim_C1 (fetch : Fetch) (settings : Settings) (fuel : Nat) (url : String)
    (tagPfx : Option String) (h : matchesAnyShape url = false) :
    download_info fetch settings fuel url tagPfx = .ok .noMatch ∧
    repo_info fetch fuel url = .ok none := by
  unfold matchesAnyShape at h
  rw [Bool.or_eq_false_iff] at h
  obtain ⟨h1, h2⟩ := h
  have ht : tagsUrlMatch url = none := by
    cases hts : tagsUrlMatch url with
    | none => rfl
    | some v => rw [hts] at h1; cases h1
  have hu : _user_repo_branch url = (none, (_user_repo_branch url).2) := by
    have h1' : (_user_repo_branch url).1 = none := by
      cases hus : (_user_repo_branch url).1 with
      | none => rfl
      | some v => rw [hus] at h2; cases h2
    rw [Prod.ext_iff]
    exact ⟨h1', rfl⟩
  constructor
  · unfold download_info
    rw [ht]
    dsimp only
    rw [hu]
  · unfold repo_info
    rw [hu]

/-- Witness for claim C1 at a URL of another hosting service. -/
theorem claim_C1_witness :
    download_info (fun _ _ => .error (.other "unused")) ⟨0⟩ 0
        "https://github.com/a/b" none = .ok .noMatch ∧
    repo_info (fun _ _ => .error (.other "unused")) 0
        "https://github.com/a/b" = .ok none :=
  claim_C1 (fun _ _ => .error (.other "unused")) ⟨0⟩ 0
    "https://github.com/a/b" none (by decide)

/-- Claim C5: a branch mode URL with no explicit branch resolves the
default branch through the repository info fetch, with the literal master
fallback when the name field is absent, and yields exactly one release
whose version is the dotted form of the truncated commit timestamp. -/
theorem claim_C5 (fetch : Fetch) (settings : Settings) (fuel : Nat)
    (url ur branch : String) (tagPfx : Option String)
    (repoJ mb branch_info : JSON) (d : String)
    (hmatch : tagsUrlMatch url = none)
    (hurb : _user_repo_branch url = (some ur, none))
    (hrepo : fetch (_make_api_url ur "") false = .ok repoJ)
    (hmb : jGet repoJ "mainbranch" = .ok mb)
    (hbr : jDictGetD mb "name" (.str "master") = .ok (.str branch))
    (hbi : fetch (_make_api_url ur ("/refs/branches/" ++ branch)) false = .ok branch_info)
    (hdate : (jGet branch_info "target").bind (fun t => jGet t "date") = .ok (.str d)) :
    download_info fetch settings fuel url tagPfx =
      .ok (.releases [⟨zipUrl ur branch,
        dotTimestamp (replaceChar 'T' ' ' (pySlice19 d)),
        replaceChar 'T' ' ' (pySlice19 d)⟩]) ∧
    (∀ fields, mb = .obj fields → jLookup fields "name" = none → branch = "master") := by
  constructor
  · unfold download_info
    rw [hmatch]
    dsimp only
    rw [hurb]
    dsimp only
    rw [hrepo]
    dsimp only
    rw [hmb]
    dsimp only
    rw [hbr]
    dsimp only
    rw [hbi]
    dsimp only
    rw [hdate]
  · intro fields hfe hln
    rw [hfe] at hbr
    simp only [jDictGetD, hln, Option.getD_none, Except.ok.injEq, JSON.str.injEq] at hbr
    exact hbr.symm

/-- Fetch collaborator of the C5 witness: a repository whose mainbranch
object lacks the name field, and a master branch with a known commit
timestamp. -/
def fetchW5 : Fetch := fun u _ =>
  if u = "https://api.bitbucket.org/2.0/repositories/a/b" then
    .ok (.obj [("mainbranch", .obj [])])
  else if u = "https://api.bitbucket.org/2.0/repositories/a/b/refs/branches/master" then
    .ok (.obj [("target", .obj [("date", .str "2021-05-06T12:00:00+00:00")])])
  else .error (.other "unexpected URL")

/-- Witness for claim C5: the default branch falls back to master and the
commit timestamp of the spec example yields the dotted version. -/
theorem claim_C5_witness :
    download_info fetchW5 ⟨0⟩ 0 "https://bitbucket.org/a/b" none =
      .ok (.releases [⟨"https://bitbucket.org/a/b/get/master.zip",
        "2021.05.06.12.00.00", "2021-05-06 12:00:00"⟩]) ∧
    (∀ fields, (JSON.obj [] : JSON) = .obj fields →
      jLookup fields "name" = none → "master" = "master") :=
  claim_C5 fetchW5 ⟨0⟩ 0 "https://bitbucket.org/a/b" "a/b" "master" none
    (.obj [("mainbranch", .obj [])]) (.obj [])
    (.obj [("target", .obj [("date", .str "2021-05-06T12:00:00+00:00")])])
    "2021-05-06T12:00:00+00:00"
    rfl rfl rfl rfl rfl rfl rfl

/-- Path of a directory entry, defaulting when malformed. -/
def entryPath (e : JSON) : String :=
  match jGet e "path" with
  | .ok (.str s) => s
  | _ => ""

/-- Wellformedness of a directory entry: a string path. -/
def wfEntry (e : JSON) : Bool :=
  match jGet e "path" with
  | .ok (.str _) => true
  | _ => false

/-- Wellformedness of one directory listing page. -/
def wfListPage (p : JSON) : Bool :=
  (match jGet p "values" with
   | .ok (.arr _) => true
   | _ => false) &&
  (tagPageValues p).all wfEntry

/-- Pure description of the readme selection: the raw URL of the first path
whose lower cased form is a known readme filename. -/
def readmePick (user_repo branch : String) (paths : List String) : Option String :=
  (paths.find? (fun p => _readme_filenames.contains (pyLower p))).map
    (fun p => "https://bitbucket.org/" ++ user_repo ++ "/raw/" ++ branch ++ "/" ++ p)

/-- The page scan returns the pure readme selection on wellformed
entries. -/
theorem findReadme_wf (ur branch : String) : ∀ (entries : List JSON),
    entries.all wfEntry = true →
    findReadme ur branch entries = .ok (readmePick ur branch (entries.map entryPath))
  | [], _ => rfl
  | e :: rest, h => by
    simp only [List.all_cons, Bool.and_eq_true] at h
    obtain ⟨h1, h2⟩ := h
    unfold wfEntry at h1
    cases hp : jGet e "path" with
    | error err => rw [hp] at h1; simp at h1
    | ok pj =>
      cases pj with
      | str path =>
        unfold findReadme
        rw [hp]
        dsimp only
        have hep : entryPath e = path := by unfold entryPath; rw [hp]
        by_cases hc : _readme_filenames.contains (pyLower path) = true
        · rw [if_pos hc]
          unfold readmePick
          simp only [List.map_cons, hep]
          rw [@List.find?_cons_of_pos String
            (fun s => _readme_filenames.contains (pyLower s))
            path (List.map entryPath rest) hc]
          rfl
        · rw [if_neg hc]
          rw [findReadme_wf ur branch rest h2]
          unfold readmePick
          simp only [List.map_cons, hep]
          rw [@List.find?_cons_of_neg String
            (fun s => _readme_filenames.contains (pyLower s))
            path (List.map entryPath rest) hc]
      | null => rw [hp] at h1; simp at h1
      | bool b => rw [hp] at h1; simp at h1
      | num n => rw [hp] at h1; simp at h1
      | arr xs => rw [hp] at h1; simp at h1
      | obj fs => rw [hp] at h1; simp at h1

/-- The directory listing walk over a chain of wellformed pages returns the
readme selection over the concatenated paths of all pages, given enough
fuel. -/
theorem readmeLoop_chain (fetch : Fetch) (ur branch : String) (pc : Bool) :
    ∀ (ps : List JSON) (u : String) (fuel : Nat),
    pagesChain fetch pc u ps → (∀ p ∈ ps, wfListPage p = true) →
    u.data ≠ [] → ps.length ≤ fuel →
    readmeLoop fetch ur branch pc fuel (.str u) =
      .ok (readmePick ur branch
        ((ps.map (fun p => (tagPageValues p).map entryPath)).flatten))
  | [], _, _, hc, _, _, _ => absurd hc (by simp [pagesChain])
  | [p], u, fuel, hc, hwf, hu, hfuel => by
    obtain ⟨hf, hnext⟩ := hc
    have hp : wfListPage p = true := hwf p (by simp)
    unfold wfListPage at hp
    simp only [Bool.and_eq_true] at hp
    obtain ⟨hp1, hp2⟩ := hp
    match fuel, hfuel with
    | fuel + 1, _ =>
      unfold readmeLoop
      have htr : jtruthy (.str u) = true := by
        simp [jtruthy, List.isEmpty_iff, hu]
      rw [if_pos htr]
      dsimp only
      rw [hf]
      dsimp only
      cases hv : jGet p "values" with
      | error e => rw [hv] at hp1; simp at hp1
      | ok vj =>
        cases vj with
        | arr l =>
          have hl : tagPageValues p = l := by unfold tagPageValues; rw [hv]
          dsimp only
          rw [findReadme_wf ur branch l (hl ▸ hp2)]
          cases hpick : readmePick ur branch (l.map entryPath) with
          | some r =>
            simp [hl, hpick]
          | none =>
            unfold readmeLoop
            rw [hnext, if_neg (by simp)]
            simp [hl, hpick]
        | null => rw [hv] at hp1; simp at hp1
        | bool b => rw [hv] at hp1; simp at hp1
        | num n => rw [hv] at hp1; simp at hp1
        | str s => rw [hv] at hp1; simp at hp1
        | obj fs => rw [hv] at hp1; simp at hp1
  | p :: q :: ps, u, fuel, hc, hwf, hu, hfuel => by
    obtain ⟨hf, u', hnext, hu', hchain⟩ := hc
    have hp : wfListPage p = true := hwf p (by simp)
    unfold wfListPage at hp
    simp only [Bool.and_eq_true] at hp
    obtain ⟨hp1, hp2⟩ := hp
    match fuel, hfuel with
    | fuel + 1, hfuel =>
      unfold readmeLoop
      have htr : jtruthy (.str u) = true := by
        simp [jtruthy, List.isEmpty_iff, hu]
      rw [if_pos htr]
      dsimp only
      rw [hf]
      dsimp only
      cases hv : jGet p "values" with
      | error e => rw [hv] at hp1; simp at hp1
      | ok vj =>
        cases vj with
        | arr l =>
          have hl : tagPageValues p = l := by unfold tagPageValues; rw [hv]
          dsimp only
          rw [findReadme_wf ur branch l (hl ▸ hp2)]
          cases hpick : readmePick ur branch (l.map entryPath) with
          | some r =>
            unfold readmePick at hpick ⊢
            simp only [List.map_cons, List.flatten_cons, hl, List.find?_append]
            cases hfind : (l.map entryPath).find?
                (fun s => _readme_filenames.contains (pyLower s)) with
            | none => rw [hfind] at hpick; simp at hpick
            | some x =>
              rw [hfind] at hpick
              simp_all [Option.orElse]
          | none =>
            rw [hnext]
            rw [readmeLoop_chain fetch ur branch pc (q :: ps) u' fuel hchain
              (fun r hr => hwf r (List.mem_cons_of_mem p hr)) hu' (by simpa using hfuel)]
            unfold readmePick at hpick ⊢
            simp only [List.map_cons, List.flatten_cons, hl, List.find?_append]
            cases hfind : (l.map entryPath).find?
                (fun s => _readme_filenames.contains (pyLower s)) with
            | none => simp [Option.orElse]
            | some x => rw [hfind] at hpick; simp at hpick
        | null => rw [hv] at hp1; simp at hp1
        | bool b => rw [hv] at hp1; simp at hp1
        | num n => rw [hv] at hp1; simp at hp1
        | str s => rw [hv] at hp1; simp at hp1
        | obj fs => rw [hv] at hp1; simp at hp1

/-- Claim C7: the readme lookup over a wellformed listing chain returns the
raw URL of the first entry across all pages, in listing order, whose lower
cased path is one of the nine readme filenames, and none when no entry
matches. -/
theorem claim_C7 (fetch : Fetch) (fuel : Nat) (ur branch : String) (pc : Bool)
    (ps : List JSON)
    (hchain : pagesChain fetch pc
      (_make_api_url ur ("/src/" ++ branch ++ "/?pagelen=100")) ps)
    (hwf : ∀ p ∈ ps, wfListPage p = true)
    (hfuel : ps.length ≤ fuel) :
    _readme_url fetch fuel ur branch pc =
      .ok (readmePick ur branch
        ((ps.map (fun p => (tagPageValues p).map entryPath)).flatten)) := by
  unfold _readme_url
  rw [readmeLoop_chain fetch ur branch pc ps _ fuel hchain hwf (apiUrl_ne_nil ur _) hfuel]

/-- Fetch collaborator of the C7 witness: one listing page with a mixed
case readme among other files. -/
def fetchW7 : Fetch := fun u _ =>
  if u = "https://api.bitbucket.org/2.0/repositories/a/b/src/main/?pagelen=100" then
    .ok (.obj [("values", .arr [.obj [("path", .str "src")],
      .obj [("path", .str "README.MD")],
      .obj [("path", .str "readme.txt")]])])
  else .error (.other "unexpected URL")

/-- Witness for claim C7: the mixed case entry is matched case
insensitively and returned with its original casing. -/
theorem claim_C7_witness :
    _readme_url fetchW7 1 "a/b" "main" false =
      .ok (some "https://bitbucket.org/a/b/raw/main/README.MD") :=
  claim_C7 fetchW7 1 "a/b" "main" false
    [.obj [("values", .arr [.obj [("path", .str "src")],
      .obj [("path", .str "README.MD")],
      .obj [("path", .str "readme.txt")]])]]
    ⟨rfl, by decide⟩ (by decide) (by decide)

/-- A successful walk up to a URL: the pages fetched so far, each linking
to the next through a truthy string next field, the last link naming the
given URL. -/
def pagesChainTo (fetch : Fetch) (pc : Bool) : String → List JSON → String → Prop
  | u, [], v => u = v
  | u, p :: ps, v => fetch u pc = .ok p ∧
      ∃ u', jGetD p "next" .null = .str u' ∧ u'.data ≠ [] ∧
        pagesChainTo fetch pc u' ps v

/-- If the walk reaches a URL whose fetch fails after pages with no match,
the loop surfaces that failure. -/
theorem readmeLoop_error (fetch : Fetch) (ur branch : String) (pc : Bool) (e : Exc) :
    ∀ (ps : List JSON) (u v : String) (fuel : Nat),
    pagesChainTo fetch pc u ps v →
    (∀ p ∈ ps, wfListPage p = true) →
    (∀ p ∈ ps, readmePick ur branch ((tagPageValues p).map entryPath) = none) →
    u.data ≠ [] →
    fetch v pc = .error e →
    ps.length < fuel →
    readmeLoop fetch ur branch pc fuel (.str u) = .error e
  | [], u, v, fuel, hchain, _, _, hu, hferr, hfuel => by
    have huv : u = v := hchain
    subst huv
    match fuel, hfuel with
    | fuel + 1, _ =>
      unfold readmeLoop
      have htr : jtruthy (.str u) = true := by
        simp [jtruthy, List.isEmpty_iff, hu]
      rw [if_pos htr]
      dsimp only
      rw [hferr]
  | p :: ps, u, v, fuel, hchain, hwf, hnm, hu, hferr, hfuel => by
    obtain ⟨hf, u', hnext, hu', hrest⟩ := hchain
    have hp : wfListPage p = true := hwf p (by simp)
    unfold wfListPage at hp
    simp only [Bool.and_eq_true] at hp
    obtain ⟨hp1, hp2⟩ := hp
    match fuel, hfuel with
    | fuel + 1, hfuel =>
      unfold readmeLoop
      have htr : jtruthy (.str u) = true := by
        simp [jtruthy, List.isEmpty_iff, hu]
      rw [if_pos htr]
      dsimp only
      rw [hf]
      dsimp only
      cases hv : jGet p "values" with
      | error err => rw [hv] at hp1; simp at hp1
      | ok vj =>
        cases vj with
        | arr l =>
          have hl : tagPageValues p = l := by unfold tagPageValues; rw [hv]
          dsimp only
          rw [findReadme_wf ur branch l (hl ▸ hp2)]
          have hpick : readmePick ur branch (l.map entryPath) = none := by
            have := hnm p (by simp)
            rwa [hl] at this
          rw [hpick]
          dsimp only
          rw [hnext]
          exact readmeLoop_error fetch ur branch pc e ps u' v fuel hrest
            (fun r hr => hwf r (List.mem_cons_of_mem p hr))
            (fun r hr => hnm r (List.mem_cons_of_mem p hr))
            hu' hferr (by simpa using hfuel)
        | null => rw [hv] at hp1; simp at hp1
        | bool b => rw [hv] at hp1; simp at hp1
        | num n => rw [hv] at hp1; simp at hp1
        | str s => rw [hv] at hp1; simp at hp1
        | obj fs => rw [hv] at hp1; simp at hp1

/-- Claim C8: a fetch failure during the readme walk is swallowed into the
none outcome exactly when it is a downloader failure whose message carries
the 404 signature; every other failure propagates unchanged. -/
theorem claim_C8 (fetch : Fetch) (fuel : Nat) (ur branch : String) (pc : Bool)
    (ps : List JSON) (v : String) (e : Exc)
    (hchain : pagesChainTo fetch pc
      (_make_api_url ur ("/src/" ++ branch ++ "/?pagelen=100")) ps v)
    (hwf : ∀ p ∈ ps, wfListPage p = true)
    (hnm : ∀ p ∈ ps, readmePick ur branch ((tagPageValues p).map entryPath) = none)
    (hferr : fetch v pc = .error e)
    (hfuel : ps.length < fuel) :
    _readme_url fetch fuel ur branch pc =
      match e with
      | .downloader msg =>
        if strContains msg "HTTP error 404" then .ok none
        else .error (.downloader msg)
      | _ => .error e := by
  unfold _readme_url
  rw [readmeLoop_error fetch ur branch pc e ps _ v fuel hchain hwf hnm
    (apiUrl_ne_nil ur _) hferr hfuel]
  cases e <;> rfl

/-- Fetch collaborator of the first C8 witness: the listing fetch fails
with a message carrying the 404 signature. -/
def fetchW8a : Fetch := fun u _ =>
  if u = "https://api.bitbucket.org/2.0/repositories/a/b/src/main/?pagelen=100" then
    .error (.downloader "HTTP error 404 downloading the listing")
  else .error (.other "unexpected URL")

/-- Fetch collaborator of the second C8 witness: the listing fetch fails
with a different downloader message. -/
def fetchW8b : Fetch := fun u _ =>
  if u = "https://api.bitbucket.org/2.0/repositories/a/b/src/main/?pagelen=100" then
    .error (.downloader "HTTP error 500 downloading the listing")
  else .error (.other "unexpected URL")

/-- Witness for claim C8: the 404 bearing failure becomes none, the other
failure propagates. -/
theorem claim_C8_witness :
    _readme_url fetchW8a 1 "a/b" "main" false = .ok none ∧
    _readme_url fetchW8b 1 "a/b" "main" false =
      .error (.downloader "HTTP error 500 downloading the listing") :=
  ⟨claim_C8 fetchW8a 1 "a/b" "main" false [] _
      (.downloader "HTTP error 404 downloading the listing")
      rfl (by simp) (by simp) rfl (by decide),
    claim_C8 fetchW8b 1 "a/b" "main" false [] _
      (.downloader "HTTP error 500 downloading the listing")
      rfl (by simp) (by simp) rfl (by decide)⟩

/-- Author resolution of repo_info: the nickname unless it is null, then
the username. -/
def pickAuthor (nick usern : JSON) : JSON :=
  match nick with
  | .null => usern
  | _ => nick

/-- Claim C6 amended: on any matched URL, bare repo or repo with branch,
with the description field present, the metadata record falls back to the
fixed literal when the description is falsy, to the input URL when the
website is falsy, prefers the nickname and falls back to the username for
the author, populates issues exactly when has_issues is truthy, and always
leaves donate null. The branch is the explicit one when given, else the
mainbranch name with the literal master fallback. A response with the
description key absent instead raises a key error, shown separately. -/
theorem claim_C6_amended (fetch : Fetch) (fuel : Nat) (url ur branch : String)
    (brOpt : Option String)
    (repoJ owner nick usern nameV descV webV hiV : JSON) (readme : Option String)
    (hurb : _user_repo_branch url = (some ur, brOpt))
    (hrepo : fetch (_make_api_url ur "") false = .ok repoJ)
    (hbranch : brOpt = some branch ∨
      (brOpt = none ∧ ∃ mb, jGet repoJ "mainbranch" = .ok mb ∧
        jDictGetD mb "name" (.str "master") = .ok (.str branch)))
    (howner : jGet repoJ "owner" = .ok owner)
    (hnick : jDictGetD owner "nickname" .null = .ok nick)
    (husern : jDictGetD owner "username" .null = .ok usern)
    (hname : jGet repoJ "name" = .ok nameV)
    (hdesc : jGet repoJ "description" = .ok descV)
    (hweb : jGet repoJ "website" = .ok webV)
    (hreadme : _readme_url fetch fuel ur branch false = .ok readme)
    (hhi : jGet repoJ "has_issues" = .ok hiV) :
    repo_info fetch fuel url = .ok (some ⟨nameV,
      (if jtruthy descV then descV else .str "No description provided"),
      (if jtruthy webV then webV else .str url),
      pickAuthor nick usern,
      none, readme,
      (if jtruthy hiV then some ("https://bitbucket.org/" ++ ur ++ "/issues")
       else none)⟩) := by
  unfold repo_info
  rw [hurb]
  dsimp only
  rw [hrepo]
  dsimp only
  rcases hbranch with hb | ⟨hb, mb, hmb, hnm⟩
  · subst hb
    dsimp only
    rw [howner]
    dsimp only
    rw [hnick]
    cases nick
    all_goals try rw [husern]
    all_goals try dsimp only [pickAuthor]
    all_goals rw [hname]
    all_goals dsimp only
    all_goals rw [hdesc]
    all_goals dsimp only
    all_goals rw [hweb]
    all_goals dsimp only
    all_goals rw [hreadme]
    all_goals dsimp only
    all_goals rw [hhi]
  · subst hb
    dsimp only
    rw [hmb]
    dsimp only
    rw [hnm]
    dsimp only
    rw [howner]
    dsimp only
    rw [hnick]
    cases nick
    all_goals try rw [husern]
    all_goals try dsimp only [pickAuthor]
    all_goals rw [hname]
    all_goals dsimp only
    all_goals rw [hdesc]
    all_goals dsimp only
    all_goals rw [hweb]
    all_goals dsimp only
    all_goals rw [hreadme]
    all_goals dsimp only
    all_goals rw [hhi]

/-- Fetch collaborator of the C6 counterexample: a repository info response
with no description key at all. -/
def fetchC6cex : Fetch := fun u _ =>
  if u = "https://api.bitbucket.org/2.0/repositories/a/b" then
    .ok (.obj [("owner", .obj [("nickname", .str "alice")]), ("name", .str "b"),
      ("website", .str "http://example.com"), ("has_issues", .bool true),
      ("mainbranch", .obj [("name", .str "main")])])
  else .error (.other "unexpected URL")

/-- Counterexample for claim C6 as stated: with the description key absent
the call raises the key error instead of returning a record with the
fallback description. -/
theorem claim_C6_counterexample :
    repo_info fetchC6cex 1 "https://bitbucket.org/a/b/src/main" =
      .error (.other "KeyError: description") := rfl

/-- Fetch collaborator of the C6 witness: empty description and website, an
owner with only a username, an enabled issue tracker, and a listing fetch
that fails with the tolerated 404. -/
def fetchW6 : Fetch := fun u _ =>
  if u = "https://api.bitbucket.org/2.0/repositories/a/b" then
    .ok (.obj [("owner", .obj [("username", .str "alice")]), ("name", .str "b"),
      ("description", .str ""), ("website", .str ""),
      ("has_issues", .bool true), ("mainbranch", .obj [("name", .str "main")])])
  else .error (.downloader "HTTP error 404 downloading the listing")

/-- Witness for the amended claim C6, exercising both matched URL shapes:
the bare repo URL resolving its default branch from the repository info and
the explicit branch URL. In both the description falls back to the fixed
literal, the homepage to the respective input URL, the author to the
username, and issues is populated. -/
theorem claim_C6_witness :
    repo_info fetchW6 1 "https://bitbucket.org/a/b" =
      .ok (some ⟨.str "b", .str "No description provided",
        .str "https://bitbucket.org/a/b", .str "alice",
        none, none, some "https://bitbucket.org/a/b/issues"⟩) ∧
    repo_info fetchW6 1 "https://bitbucket.org/a/b/src/main" =
      .ok (some ⟨.str "b", .str "No description provided",
        .str "https://bitbucket.org/a/b/src/main", .str "alice",
        none, none, some "https://bitbucket.org/a/b/issues"⟩) :=
  ⟨claim_C6_amended fetchW6 1 "https://bitbucket.org/a/b" "a/b" "main" none
    (.obj [("owner", .obj [("username", .str "alice")]), ("name", .str "b"),
      ("description", .str ""), ("website", .str ""),
      ("has_issues", .bool true), ("mainbranch", .obj [("name", .str "main")])])
    (.obj [("username", .str "alice")]) .null (.str "alice")
    (.str "b") (.str "") (.str "") (.bool true) none
    rfl rfl (Or.inr ⟨rfl, .obj [("name", .str "main")], rfl, rfl⟩)
    rfl rfl rfl rfl rfl rfl rfl rfl,
  claim_C6_amended fetchW6 1 "https://bitbucket.org/a/b/src/main" "a/b" "main"
    (some "main")
    (.obj [("owner", .obj [("username", .str "alice")]), ("name", .str "b"),
      ("description", .str ""), ("website", .str ""),
      ("has_issues", .bool true), ("mainbranch", .obj [("name", .str "main")])])
    (.obj [("username", .str "alice")]) .null (.str "alice")
    (.str "b") (.str "") (.str "") (.bool true) none
    rfl rfl (Or.inl rfl)
    rfl rfl rfl rfl rfl rfl rfl rfl⟩

/-- Whenever repo_info returns a record for a matched identity, the issues
field is either null or exactly the issues template with the matched
owner/repo text spliced verbatim. -/
theorem repo_info_issues (fetch : Fetch) (fuel : Nat) (u ur2 : String)
    (brOpt : Option String) (meta : RepoMeta)
    (hurb : _user_repo_branch u = (some ur2, brOpt))
    (h : repo_info fetch fuel u = .ok (some meta)) :
    meta.issues = none ∨
      meta.issues = some ("https://bitbucket.org/" ++ ur2 ++ "/issues") := by
  unfold repo_info at h
  rw [hurb] at h
  dsimp only at h
  cases hf : fetch (_make_api_url ur2 "") false with
  | error e => rw [hf] at h; cases h
  | ok repoJ =>
    rw [hf] at h
    dsimp only at h
    cases brOpt with
    | some b =>
      dsimp only at h
      cases ho : jGet repoJ "owner" with
      | error e => rw [ho] at h; cases h
      | ok owner =>
        rw [ho] at h
        dsimp only at h
        cases hn : jDictGetD owner "nickname" .null with
        | error e => rw [hn] at h; cases h
        | ok nick =>
          rw [hn] at h
          cases nick
          all_goals try dsimp only at h
          all_goals repeat'
            first
            | split at h
            | (replace h := h.symm; split at h)
          all_goals cases h
          all_goals simp
    | none =>
      dsimp only at h
      cases hmb : jGet repoJ "mainbranch" with
      | error e => rw [hmb] at h; cases h
      | ok mb =>
        rw [hmb] at h
        dsimp only at h
        cases hnm : jDictGetD mb "name" (.str "master") with
        | error e => rw [hnm] at h; cases h
        | ok v =>
          rw [hnm] at h
          cases v with
          | str b =>
            dsimp only at h
            cases ho : jGet repoJ "owner" with
            | error e => rw [ho] at h; cases h
            | ok owner =>
              rw [ho] at h
              dsimp only at h
              cases hn : jDictGetD owner "nickname" .null with
              | error e => rw [hn] at h; cases h
              | ok nick =>
                rw [hn] at h
                cases nick
                all_goals try dsimp only at h
                all_goals repeat'
                  first
                  | split at h
                  | (replace h := h.symm; split at h)
                all_goals cases h
                all_goals simp
          | null => cases h
          | bool bb => cases h
          | num n => cases h
          | arr xs => cases h
          | obj fs => cases h

/-- A readme URL produced by the page scan instantiates the raw content
template with the given identity and branch spliced verbatim. -/
theorem findReadme_shape (ur branch : String) : ∀ (entries : List JSON) (r : String),
    findReadme ur branch entries = .ok (some r) →
    ∃ path, r = "https://bitbucket.org/" ++ ur ++ "/raw/" ++ branch ++ "/" ++ path
  | [], r, h => by cases h
  | e :: rest, r, h => by
    unfold findReadme at h
    cases hp : jGet e "path" with
    | error err => rw [hp] at h; cases h
    | ok pj =>
      rw [hp] at h
      cases pj with
      | str path =>
        dsimp only at h
        by_cases hc : _readme_filenames.contains (pyLower path) = true
        · rw [if_pos hc] at h
          cases h
          exact ⟨path, rfl⟩
        · rw [if_neg hc] at h
          exact findReadme_shape ur branch rest r h
      | null => cases h
      | bool b => cases h
      | num n => cases h
      | arr xs => cases h
      | obj fs => cases h

/-- A readme URL produced by the listing walk instantiates the raw content
template. -/
theorem readmeLoop_shape (fetch : Fetch) (ur branch : String) (pc : Bool) :
    ∀ (fuel : Nat) (lurl : JSON) (r : String),
    readmeLoop fetch ur branch pc fuel lurl = .ok (some r) →
    ∃ path, r = "https://bitbucket.org/" ++ ur ++ "/raw/" ++ branch ++ "/" ++ path := by
  intro fuel
  induction fuel with
  | zero =>
    intro lurl r h
    unfold readmeLoop at h
    by_cases ht : jtruthy lurl = true
    · rw [if_pos ht] at h
      cases h
    · rw [if_neg ht] at h
      cases h
  | succ fuel ih =>
    intro lurl r h
    unfold readmeLoop at h
    by_cases ht : jtruthy lurl = true
    · rw [if_pos ht] at h
      dsimp only at h
      cases lurl with
      | str u =>
        dsimp only at h
        cases hf : fetch u pc with
        | error e => rw [hf] at h; cases h
        | ok j =>
          rw [hf] at h
          dsimp only at h
          cases hv : jGet j "values" with
          | error e => rw [hv] at h; cases h
          | ok vj =>
            rw [hv] at h
            cases vj with
            | arr entries =>
              dsimp only at h
              cases hr : findReadme ur branch entries with
              | error e => rw [hr] at h; cases h
              | ok ro =>
                rw [hr] at h
                cases ro with
                | some r0 =>
                  dsimp only at h
                  cases h
                  exact findReadme_shape ur branch entries r hr
                | none =>
                  dsimp only at h
                  exact ih _ r h
            | null => cases h
            | bool b => cases h
            | num n => cases h
            | str s => cases h
            | obj fs => cases h
      | null => cases h
      | bool b => cases h
      | num n => cases h
      | arr xs => cases h
      | obj fs => cases h
    · rw [if_neg ht] at h
      cases h

/-- A readme URL returned by _readme_url instantiates the raw content
template with the identity and branch spliced verbatim. -/
theorem readme_url_shape (fetch : Fetch) (fuel : Nat) (ur branch : String)
    (pc : Bool) (r : String)
    (h : _readme_url fetch fuel ur branch pc = .ok (some r)) :
    ∃ path, r = "https://bitbucket.org/" ++ ur ++ "/raw/" ++ branch ++ "/" ++ path := by
  unfold _readme_url at h
  cases hl : readmeLoop fetch ur branch pc fuel
      (.str (_make_api_url ur ("/src/" ++ branch ++ "/?pagelen=100"))) with
  | ok ro =>
    rw [hl] at h
    cases ro with
    | some r0 =>
      cases h
      exact readmeLoop_shape fetch ur branch pc fuel _ r hl
    | none => cases h
  | error e =>
    rw [hl] at h
    cases e with
    | downloader msg =>
      dsimp only at h
      by_cases hm : strContains msg "HTTP error 404" = true
      · rw [if_pos hm] at h
        cases h
      · rw [if_neg hm] at h
        cases h
    | other msg => cases h
    | nonterm => cases h

/-- Counterexample for claim C9 as stated: a matched identity containing a
space is spliced into the tags web URL verbatim, with no percent encoding
applied. -/
theorem claim_C9_counterexample :
    make_tags_url "https://bitbucket.org/a b/c" =
      some "https://bitbucket.org/a b/c#tags" ∧
    quote "a b" = "a%20b" ∧
    strContains "https://bitbucket.org/a b/c#tags" "a%20b" = false :=
  ⟨rfl, rfl, rfl⟩

/-- Claim C9 amended: make_repo_url percent encodes its owner and repo
arguments and make_branch_url percent encodes only the branch, while the
tags and branch web URLs, the issues URL and the API URLs splice the
matched or given owner/repo text verbatim, assuming it already valid. -/
theorem claim_C9_amended (owner_name repo_name br ur sfx url : String)
    (hmatch : repoUrlMatch url = some ur) :
    make_repo_url owner_name repo_name =
      "https://bitbucket.com/" ++ quote owner_name ++ "/" ++ quote repo_name ∧
    make_tags_url url = some ("https://bitbucket.org/" ++ ur ++ "#tags") ∧
    make_branch_url url br =
      some ("https://bitbucket.org/" ++ ur ++ "/src/" ++ quote br) ∧
    _make_api_url ur sfx = "https://api.bitbucket.org/2.0/repositories/" ++ ur ++ sfx ∧
    (∀ (f : Fetch) (fl : Nat) (u ur2 : String) (brOpt : Option String)
        (meta : RepoMeta),
      _user_repo_branch u = (some ur2, brOpt) →
      repo_info f fl u = .ok (some meta) →
      meta.issues = none ∨
        meta.issues = some ("https://bitbucket.org/" ++ ur2 ++ "/issues")) := by
  refine ⟨rfl, ?_, ?_, rfl, ?_⟩
  · unfold make_tags_url
    rw [hmatch]
  · unfold make_branch_url
    rw [hmatch]
  · intro f fl u ur2 brOpt meta hu hr
    exact repo_info_issues f fl u ur2 brOpt meta hu hr

/-- Fetch collaborator of the C9 witness: repository info for an identity
containing a space, with the issue tracker enabled and a listing fetch
failing with the tolerated 404. -/
def fetchW9 : Fetch := fun u _ =>
  if u = "https://api.bitbucket.org/2.0/repositories/a b/c" then
    .ok (.obj [("owner", .obj [("nickname", .str "alice")]), ("name", .str "c"),
      ("description", .str "d"), ("website", .str "w"),
      ("has_issues", .bool true), ("mainbranch", .obj [("name", .str "main")])])
  else .error (.downloader "HTTP error 404 downloading the listing")

/-- Witness for the amended claim C9 on an identity with a space, including
a concrete repo_info run whose issues URL splices the raw identity. -/
theorem claim_C9_witness :
    (make_repo_url "a b" "x" = "https://bitbucket.com/a%20b/x" ∧
    make_tags_url "https://bitbucket.org/a b/c" =
      some "https://bitbucket.org/a b/c#tags" ∧
    make_branch_url "https://bitbucket.org/a b/c" "dev branch" =
      some "https://bitbucket.org/a b/c/src/dev%20branch" ∧
    _make_api_url "a b/c" "/refs" =
      "https://api.bitbucket.org/2.0/repositories/a b/c/refs" ∧
    (∀ (f : Fetch) (fl : Nat) (u ur2 : String) (brOpt : Option String)
        (meta : RepoMeta),
      _user_repo_branch u = (some ur2, brOpt) →
      repo_info f fl u = .ok (some meta) →
      meta.issues = none ∨
        meta.issues = some ("https://bitbucket.org/" ++ ur2 ++ "/issues"))) ∧
    repo_info fetchW9 1 "https://bitbucket.org/a b/c" =
      .ok (some ⟨.str "c", .str "d", .str "w", .str "alice",
        none, none, some "https://bitbucket.org/a b/c/issues"⟩) :=
  ⟨claim_C9_amended "a b" "x" "dev branch" "a b/c" "/refs"
    "https://bitbucket.org/a b/c" rfl, rfl⟩

/-- Splicing a pattern before anything keeps it at the front. -/
theorem startsWithL_append : ∀ (pat rest : List Char),
    startsWithL (pat ++ rest) pat = true
  | [], rest => by
    cases rest with
    | nil => rfl
    | cons c cs => rfl
  | c :: cs, rest => by
    show startsWithL (c :: (cs ++ rest)) (c :: cs) = true
    unfold startsWithL
    simp [startsWithL_append cs rest]

/-- Claim C10: make_repo_url produces the bitbucket.com host with both
segments percent encoded, while every other URL this component produces,
the tags and branch web URLs, the API URLs, the zip download URL, the
issues URL of the metadata record and the raw readme URL, carries the
bitbucket.org or api.bitbucket.org host. -/
theorem claim_C10 (owner_name repo_name : String) :
    make_repo_url owner_name repo_name =
      "https://bitbucket.com/" ++ quote owner_name ++ "/" ++ quote repo_name ∧
    (∀ url ur, repoUrlMatch url = some ur →
      make_tags_url url = some ("https://bitbucket.org/" ++ ur ++ "#tags") ∧
      ∀ br, make_branch_url url br =
        some ("https://bitbucket.org/" ++ ur ++ "/src/" ++ quote br)) ∧
    (∀ ur sfx, startsWithL (_make_api_url ur sfx).data
      "https://api.bitbucket.org/".data = true) ∧
    (∀ ur tag, startsWithL (zipUrl ur tag).data
      "https://bitbucket.org/".data = true) ∧
    (∀ (f : Fetch) (fl : Nat) (u ur2 : String) (brOpt : Option String)
        (meta : RepoMeta),
      _user_repo_branch u = (some ur2, brOpt) →
      repo_info f fl u = .ok (some meta) →
      meta.issues = none ∨
        meta.issues = some ("https://bitbucket.org/" ++ ur2 ++ "/issues")) ∧
    (∀ (f : Fetch) (fl : Nat) (ur2 branch : String) (pc : Bool) (r : String),
      _readme_url f fl ur2 branch pc = .ok (some r) →
      ∃ path, r = "https://bitbucket.org/" ++ ur2 ++ "/raw/" ++ branch ++ "/" ++ path) := by
  refine ⟨rfl, ?_, ?_, ?_, ?_, ?_⟩
  · intro url ur hmatch
    constructor
    · unfold make_tags_url
      rw [hmatch]
    · intro br
      unfold make_branch_url
      rw [hmatch]
  · intro ur sfx
    have hsplit : ("https://api.bitbucket.org/2.0/repositories/" : String).data =
        ("https://api.bitbucket.org/" : String).data ++
          ("2.0/repositories/" : String).data := rfl
    unfold _make_api_url
    rw [String.data_append, String.data_append, hsplit, List.append_assoc,
      List.append_assoc]
    exact startsWithL_append _ _
  · intro ur tag
    unfold zipUrl
    simp only [String.data_append, List.append_assoc]
    exact startsWithL_append _ _
  · intro f fl u ur2 brOpt meta hu hr
    exact repo_info_issues f fl u ur2 brOpt meta hu hr
  · intro f fl ur2 branch pc r hr
    exact readme_url_shape f fl ur2 branch pc r hr

/-- One tag entry of the witness pages. -/
def tagJ (name date : String) : JSON :=
  .obj [("name", .str name), ("target", .obj [("date", .str date)])]

/-- First witness page: one tag and a next link. -/
def pageW2a : JSON :=
  .obj [("values", .arr [tagJ "v1.0" "2020-01-01T10:00:00+00:00"]),
    ("next", .str "p2")]

/-- Second witness page: two more tags, no next link. -/
def pageW2b : JSON :=
  .obj [("values", .arr [tagJ "v2.0" "2021-02-02T11:00:00+00:00",
    tagJ "1.5" "2020-06-06T09:00:00+00:00"])]

/-- Fetch collaborator of the C2 witness, serving the two tag pages. -/
def fetchW2 : Fetch := fun u _ =>
  if u = "https://api.bitbucket.org/2.0/repositories/a/b/refs/tags?pagelen=100" then
    .ok pageW2a
  else if u = "p2" then .ok pageW2b
  else .error (.other "unexpected URL")

/-- Witness for claim C2 on a two page chain of three tags. -/
theorem claim_C2_witness :
    ∃ rs, download_info fetchW2 ⟨0⟩ 2 "https://bitbucket.org/a/b#tags" none =
        .ok (.releases rs) ∧
      rs.Pairwise (fun r1 r2 => verLt (versionKey r2.version) (versionKey r1.version) = true) ∧
      (rs.map (fun r => r.version)).Nodup ∧
      ∀ r ∈ rs, ∃ info,
        (version_sort (version_process ((mergedTags [pageW2a, pageW2b]).map Prod.fst) none)).find?
            (fun i => i.version == r.version) = some info ∧
        r.version = info.version ∧
        r.url = zipUrl "a/b" (info.pfx ++ info.version) ∧
        tmLookup (mergedTags [pageW2a, pageW2b]) (info.pfx ++ info.version) = .ok r.date :=
  claim_C2 fetchW2 ⟨0⟩ 2 "https://bitbucket.org/a/b#tags" "a/b" none
    [pageW2a, pageW2b] rfl
    ⟨rfl, "p2", rfl, by decide, rfl, by decide⟩
    (by decide) (by decide) (by decide)

/-- Single page of the C3 and C4 style witnesses with three valid tags. -/
def pageW3 : JSON :=
  .obj [("values", .arr [tagJ "v1.0" "2020-01-01T10:00:00+00:00",
    tagJ "v2.0" "2021-02-02T11:00:00+00:00",
    tagJ "1.5" "2020-06-06T09:00:00+00:00"])]

/-- Fetch collaborator of the C3 witness. -/
def fetchW3 : Fetch := fun u _ =>
  if u = "https://api.bitbucket.org/2.0/repositories/a/b/refs/tags?pagelen=100" then
    .ok pageW3
  else .error (.other "unexpected URL")

/-- Witness for claim C3: a cap of one on three valid tags leaves exactly
one release, the highest version. -/
theorem claim_C3_witness :
    (∃ rs, download_info fetchW3 ⟨1⟩ 1 "https://bitbucket.org/a/b#tags" none =
        .ok (.releases rs) ∧
      ((1 : Nat) ≠ 0 → rs.length ≤ 1) ∧
      ((1 : Nat) = 0 →
        rs.map (fun r => r.version) =
          keepFirsts []
            ((version_sort (version_process ((mergedTags [pageW3]).map Prod.fst) none)).map
              (fun i => i.version)))) ∧
    download_info fetchW3 ⟨1⟩ 1 "https://bitbucket.org/a/b#tags" none =
      .ok (.releases [⟨"https://bitbucket.org/a/b/get/v2.0.zip", "2.0",
        "2021-02-02 11:00:00"⟩]) :=
  ⟨claim_C3 fetchW3 ⟨1⟩ 1 "https://bitbucket.org/a/b#tags" "a/b" none
    [pageW3] rfl ⟨rfl, by decide⟩ (by decide) (by decide) (by decide),
    rfl⟩

/-- Page of the C4 witness: a single tag that is not a version. -/
def pageW4 : JSON :=
  .obj [("values", .arr [tagJ "hello" "2020-01-01T10:00:00+00:00"])]

/-- Fetch collaborator of the C4 witness. -/
def fetchW4 : Fetch := fun u _ =>
  if u = "https://api.bitbucket.org/2.0/repositories/a/b/refs/tags?pagelen=100" then
    .ok pageW4
  else .error (.other "unexpected URL")

/-- Witness for claim C4: a tags URL whose only tag fails version parsing
yields the false sentinel, distinct from the none and from any list. -/
theorem claim_C4_witness :
    download_info fetchW4 ⟨0⟩ 1 "https://bitbucket.org/a/b#tags" none =
      .ok .noReleases ∧
    DLResult.noReleases ≠ DLResult.noMatch ∧
    ∀ rs, DLResult.noReleases ≠ DLResult.releases rs :=
  claim_C4 fetchW4 ⟨0⟩ 1 "https://bitbucket.org/a/b#tags" "a/b" none
    [pageW4] rfl ⟨rfl, by decide⟩ (by decide) (by decide) (by decide)
